import Mathlib

/-!
Verification of the pypb dataset core (`pypb/dset.py`, `pypb/dset_sort.py`).

The file format and the reader / writer / appender state machines are embedded
shallowly:

* a file is a list of natural numbers (its bytes; genuine bytes are `< 256`);
* `seek`/`read`/`write` become `readAt` / `writeAt` on that list;
* the external serialisation and compression libraries (msgpack, zlib, lz4) are
  modelled by a `Codec` record of abstract functions together with the
  round-trip laws (`LawfulCodec`) those libraries document; the checksum
  (`struct.pack("< I I", len(data), adler32(data) & 0xffffffff)`) is modelled
  exactly;
* every fallible operation returns `Except Err`, with one `Err` constructor per
  exception message raised by the source.
-/

namespace PypbDset

/-- Bytes of a file, as natural numbers.  Genuine file bytes are `< 256`. -/
abbrev Bytes := List Nat

/-- `fobj.seek(pos); fobj.read(n)`: the `n` bytes starting at `pos`
(short read near the end of the file). -/
def readAt (f : Bytes) (pos n : Nat) : Bytes := (f.drop pos).take n

/-- `fobj.seek(pos); fobj.write(data)`: overwrite in place, zero-fill any gap
beyond the current end, extend the file as needed. -/
def writeAt (f : Bytes) (pos : Nat) (data : Bytes) : Bytes :=
  f.take pos ++ List.replicate (pos - f.length) 0 ++ data ++ f.drop (pos + data.length)

/-- Little-endian 2-byte encoding (`struct` format `H`), value taken mod 2^16. -/
def le16 (n : Nat) : Bytes := [n % 256, n / 256 % 256]

/-- Little-endian 4-byte encoding (`struct` format `I`), value taken mod 2^32. -/
def le32 (n : Nat) : Bytes := [n % 256, n / 256 % 256, n / 65536 % 256, n / 16777216 % 256]

/-- Little-endian decoding of a byte string (`struct.unpack`). -/
def leDec : Bytes → Nat
  | [] => 0
  | b :: bs => b % 256 + 256 * leDec bs

/-- One step of `zlib.adler32`: `a := (a + c) % 65521; b := (b + a) % 65521`. -/
def adlerStep : Nat × Nat → Nat → Nat × Nat
  | (a, b), c => ((a + c) % 65521, (b + (a + c) % 65521) % 65521)

/-- `zlib.adler32(data) & 0xffffffff` (the mask is a no-op on the high part). -/
def adler32 (data : Bytes) : Nat :=
  let p := data.foldl adlerStep (1, 0)
  p.2 * 65536 + p.1

/-- `dset.checksum`: `struct.pack(CHECKSUM_FMT, len(data), adler32(data))`,
`CHECKSUM_FMT = "< I I"`. -/
def checksumB (data : Bytes) : Bytes := le32 data.length ++ le32 (adler32 data)

/-- Byte length of a packed checksum (`CHECKSUM_LEN`). -/
def CHECKSUM_LEN : Nat := 8

/-- `HEADER_SPACE`: the reserved header region at the start of the file. -/
def HEADER_SPACE : Nat := 4096

/-- Format `VERSION`. -/
def VERSION : Nat := 3

/-- The bytes of `MAGIC_STRING` (the ASCII codes of the 12-character magic). -/
def MAGIC : Bytes := [112, 98, 39, 115, 32, 100, 97, 116, 97, 115, 101, 116]

/-- The exceptions the dataset code raises, one constructor per message. -/
inductive Err where
  | notDataset
  | badVersion (v : Nat)
  | headerChecksum
  | indexChecksum
  | blockChecksum (n : Nat)
  | unknownCompression (s : String)
  | unknownSerializer (s : String)
  | indexOut
  | valueErr
  | keyErr
  | typeErr
  | assertFail
  deriving DecidableEq

/-- A msgpack header value: the header maps strings to ints or strings. -/
inductive HVal where
  | nat (n : Nat)
  | str (s : String)
  deriving DecidableEq

/-- `header[k]` on the decoded header map (raises `KeyError` when absent). -/
def hget (h : List (String × HVal)) (k : String) : Except Err HVal :=
  match h.find? (fun p => p.1 == k) with
  | some p => .ok p.2
  | none => .error .keyErr

/-- `header[k]` where an integer is expected. -/
def hgetNat (h : List (String × HVal)) (k : String) : Except Err Nat :=
  match hget h k with
  | .ok (.nat n) => .ok n
  | .ok (.str _) => .error .typeErr
  | .error e => .error e

/-- `header[k]` where a string is expected. -/
def hgetStr (h : List (String × HVal)) (k : String) : Except Err String :=
  match hget h k with
  | .ok (.str s) => .ok s
  | .ok (.nat _) => .error .typeErr
  | .error e => .error e

/-- Keys of `COMPRESSER_TABLE` and `DECOMPRESSER_TABLE` (the two tables have
the same key set in the source). -/
def compressionNames : List String := ["zlib", "lz4"]

/-- Keys of `SERIALIZER_TABLE` and `UNSERIALIZER_TABLE`. -/
def serializerNames : List String := ["msgpack"]

/-! ### Basic facts about `readAt` and `writeAt` -/

theorem length_readAt (f : Bytes) (pos n : Nat) :
    (readAt f pos n).length = min n (f.length - pos) := by
  simp [readAt]

theorem readAt_length_le (f : Bytes) (pos n : Nat) (hn : 0 < n)
    (h : (readAt f pos n).length = n) : pos + n ≤ f.length := by
  rw [length_readAt] at h
  omega

theorem readAt_add (f : Bytes) (p k n : Nat) :
    readAt f p (k + n) = readAt f p k ++ readAt f (p + k) n := by
  simp [readAt, List.take_add, List.drop_drop]

theorem writeAt_eq_append (f : Bytes) (pos : Nat) (data : Bytes) (h : pos = f.length) :
    writeAt f pos data = f ++ data := by
  subst h
  simp [writeAt, List.drop_of_length_le]

theorem writeAt_zero (f : Bytes) (data : Bytes) :
    writeAt f 0 data = data ++ f.drop data.length := by
  simp [writeAt]

theorem length_writeAt (f : Bytes) (pos : Nat) (data : Bytes) :
    (writeAt f pos data).length = max f.length (pos + data.length) := by
  simp [writeAt]
  omega

theorem readAt_append_left (f t : Bytes) (pos n : Nat) (h : pos + n ≤ f.length) :
    readAt (f ++ t) pos n = readAt f pos n := by
  apply List.ext_getElem?
  intro i
  simp only [readAt, List.getElem?_take, List.getElem?_drop]
  split
  · next hi =>
    rw [List.getElem?_append_left (by omega)]
  · rfl

theorem readAt_append_right (a b : Bytes) (n : Nat) :
    readAt (a ++ b) a.length n = b.take n := by
  simp [readAt, List.drop_left]

theorem readAt_prefix (a b : Bytes) (pos n : Nat) (h : pos + n ≤ a.length) :
    readAt (a ++ b) pos n = readAt a pos n :=
  readAt_append_left a b pos n h

theorem readAt_set_outside (f : Bytes) (p b pos n : Nat) (h : pos + n ≤ p ∨ p < pos) :
    readAt (f.set p b) pos n = readAt f pos n := by
  apply List.ext_getElem?
  intro i
  simp only [readAt, List.getElem?_take, List.getElem?_drop]
  split
  · next hi =>
    rw [List.getElem?_set_ne]
    omega
  · rfl

theorem readAt_set_inside (f : Bytes) (p b pos n : Nat)
    (h1 : pos ≤ p) (h2 : p < pos + n) (h3 : p < f.length) :
    readAt (f.set p b) pos n = (readAt f pos n).set (p - pos) b := by
  apply List.ext_getElem?
  intro i
  by_cases hip : i = p - pos
  · subst hip
    have h4 : p - pos < (readAt f pos n).length := by
      rw [length_readAt]; omega
    rw [List.getElem?_set_eq_of_lt _ h4]
    simp only [readAt, List.getElem?_take, List.getElem?_drop]
    have : pos + (p - pos) = p := by omega
    rw [if_pos (by omega), this, List.getElem?_set_eq_of_lt _ h3]
  · rw [List.getElem?_set_ne (by omega)]
    simp only [readAt, List.getElem?_take, List.getElem?_drop]
    split
    · rw [List.getElem?_set_ne (by omega)]
    · rfl

theorem getElem?_readAt (f : Bytes) (pos n i : Nat) (hi : i < n) :
    (readAt f pos n)[i]? = f[pos + i]? := by
  simp [readAt, List.getElem?_take, hi, List.getElem?_drop]

/-! ### The adler32 checksum detects any single-byte change -/

theorem adler_fst (l : Bytes) : ∀ a c : Nat, a < 65521 →
    (l.foldl adlerStep (a, c)).1 = (a + l.sum) % 65521 := by
  induction l with
  | nil => intro a c h; simpa using (Nat.mod_eq_of_lt h).symm
  | cons x xs ih =>
    intro a c h
    simp only [List.foldl_cons, List.sum_cons, adlerStep]
    rw [ih _ _ (Nat.mod_lt _ (by omega))]
    omega

theorem adler_snd (l : Bytes) : ∀ a c : Nat, c < 65521 →
    (l.foldl adlerStep (a, c)).2 < 65521 := by
  induction l with
  | nil => intro a c h; simpa using h
  | cons x xs ih =>
    intro a c h
    simp only [List.foldl_cons, adlerStep]
    exact ih _ _ (Nat.mod_lt _ (by omega))

theorem adler32_lt (l : Bytes) : adler32 l < 4294967296 := by
  have h1 : (l.foldl adlerStep (1, 0)).1 < 65521 := by
    rw [adler_fst l 1 0 (by omega)]
    exact Nat.mod_lt _ (by omega)
  have h2 : (l.foldl adlerStep (1, 0)).2 < 65521 := adler_snd l 1 0 (by omega)
  simp only [adler32]
  omega

theorem sum_set_decomp (l : Bytes) (p v b : Nat) (hv : l[p]? = some v) :
    (l.set p b).sum + v = l.sum + b := by
  have hp : p < l.length := by
    by_contra h
    rw [List.getElem?_eq_none (by omega)] at hv
    exact Option.noConfusion hv
  have hl : l = l.take p ++ v :: l.drop (p + 1) := by
    conv_lhs => rw [← List.take_append_drop p l]
    rw [List.drop_eq_getElem_cons hp]
    congr 2
    have := List.getElem?_eq_getElem hp
    rw [this] at hv
    exact (Option.some.injEq _ _).mp hv
  have hs : l.set p b = l.take p ++ b :: l.drop (p + 1) := by
    rw [List.set_eq_take_append_cons_drop]
    simp [hp]
  rw [hs]
  conv_rhs => rw [hl]
  simp
  omega

theorem adler32_set_ne (l : Bytes) (p v b : Nat) (hv : l[p]? = some v)
    (hvm : v < 65521) (hbm : b < 65521) (hne : b ≠ v) :
    adler32 (l.set p b) ≠ adler32 l := by
  intro h
  have ha1 : ((l.set p b).foldl adlerStep (1, 0)).1 = (1 + (l.set p b).sum) % 65521 :=
    adler_fst _ 1 0 (by omega)
  have ha2 : (l.foldl adlerStep (1, 0)).1 = (1 + l.sum) % 65521 :=
    adler_fst _ 1 0 (by omega)
  have hfst : ((l.set p b).foldl adlerStep (1, 0)).1 = (l.foldl adlerStep (1, 0)).1 := by
    have e1 : adler32 (l.set p b) % 65536 = adler32 l % 65536 := by rw [h]
    have b1 : ((l.set p b).foldl adlerStep (1, 0)).1 < 65521 := by
      rw [ha1]; exact Nat.mod_lt _ (by omega)
    have b2 : (l.foldl adlerStep (1, 0)).1 < 65521 := by
      rw [ha2]; exact Nat.mod_lt _ (by omega)
    simp only [adler32] at e1
    rw [Nat.mul_comm _ 65536, Nat.mul_add_mod] at e1
    rw [Nat.mul_comm _ 65536, Nat.mul_add_mod] at e1
    rw [Nat.mod_eq_of_lt (by omega), Nat.mod_eq_of_lt (by omega)] at e1
    exact e1
  rw [ha1, ha2] at hfst
  have hsum := sum_set_decomp l p v b hv
  omega

theorem checksumB_set_ne (l : Bytes) (p v b : Nat) (hv : l[p]? = some v)
    (hvm : v < 65521) (hbm : b < 65521) (hne : b ≠ v) :
    checksumB (l.set p b) ≠ checksumB l := by
  intro h
  have hlen : (l.set p b).length = l.length := List.length_set l p b
  have hne' := adler32_set_ne l p v b hv hvm hbm hne
  have h1 := adler32_lt (l.set p b)
  have h2 := adler32_lt l
  simp only [checksumB, le32, hlen, List.cons_append, List.nil_append,
    List.cons.injEq, and_true] at h
  omega

/-! ### Splitting the blocks written one after another -/

/-- Split a list into consecutive chunks of `bl` elements (the last chunk may be
shorter); this is how `append`/`extend` group records into blocks. -/
def chunksOf (bl : Nat) : List α → List (List α)
  | [] => []
  | x :: xs => (x :: xs.take (bl - 1)) :: chunksOf bl (xs.drop (bl - 1))
termination_by l => l.length
decreasing_by simp only [List.length_cons, List.length_drop]; omega

@[simp] theorem chunksOf_nil (bl : Nat) : chunksOf bl ([] : List α) = [] := by
  simp [chunksOf]

theorem chunksOf_flatten (bl : Nat) (l : List α) : (chunksOf bl l).flatten = l := by
  induction l using chunksOf.induct bl with
  | case1 => simp
  | case2 x xs ih =>
    rw [chunksOf]
    simp only [List.flatten_cons, ih, List.cons_append]
    rw [List.take_append_drop]

theorem chunksOf_ne_nil (bl : Nat) (l : List α) (c : List α) (hc : c ∈ chunksOf bl l) :
    c ≠ [] := by
  induction l using chunksOf.induct bl with
  | case1 => simp at hc
  | case2 x xs ih =>
    rw [chunksOf] at hc
    rcases List.mem_cons.mp hc with h | h
    · subst h; simp
    · exact ih h

theorem chunksOf_length_le (bl : Nat) (hbl : 1 ≤ bl) (l : List α) (c : List α)
    (hc : c ∈ chunksOf bl l) : c.length ≤ bl := by
  induction l using chunksOf.induct bl with
  | case1 => simp at hc
  | case2 x xs ih =>
    rw [chunksOf] at hc
    rcases List.mem_cons.mp hc with h | h
    · subst h
      simp only [List.length_cons, List.length_take]
      omega
    · exact ih h

theorem chunksOf_singleton (bl : Nat) (l : List α) (hne : l ≠ [])
    (hle : l.length ≤ bl) : chunksOf bl l = [l] := by
  match l with
  | [] => exact absurd rfl hne
  | x :: xs =>
    rw [chunksOf]
    have h1 : xs.take (bl - 1) = xs := by
      apply List.take_of_length_le
      simp at hle
      omega
    have h2 : xs.drop (bl - 1) = [] := by
      apply List.drop_of_length_le
      simp at hle
      omega
    rw [h1, h2, chunksOf_nil]

/-- Flushing full blocks then one trailing partial block is exactly `chunksOf`. -/
theorem chunksOf_append_full (bl : Nat) (hbl : 1 ≤ bl) (cs : List (List α)) (rem : List α)
    (hfull : ∀ c ∈ cs, c.length = bl) (hrem : rem.length ≤ bl) :
    chunksOf bl (cs.flatten ++ rem) = cs ++ (if rem.isEmpty then [] else [rem]) := by
  induction cs with
  | nil =>
    simp only [List.flatten_nil, List.nil_append]
    cases rem with
    | nil => simp
    | cons r rs =>
      rw [chunksOf_singleton bl (r :: rs) (by simp) hrem]
      simp
  | cons c cs ih =>
    have hc : c.length = bl := hfull c (by simp)
    cases c with
    | nil => simp at hc; omega
    | cons y ys =>
      simp only [List.flatten_cons, List.cons_append]
      rw [chunksOf]
      have hys : ys.length = bl - 1 := by simp at hc; omega
      have h1 : (ys ++ (cs.flatten ++ rem)).take (bl - 1) = ys := by
        rw [List.take_append_of_le_length (by omega), List.take_of_length_le (by omega)]
      have h2 : (ys ++ (cs.flatten ++ rem)).drop (bl - 1) = cs.flatten ++ rem := by
        rw [← hys, List.drop_left]
      rw [List.append_assoc, h1, h2, ih (fun d hd => hfull d (by simp [hd]))]

theorem chunksOf_length (bl : Nat) (hbl : 1 ≤ bl) (l : List α) (hne : l ≠ []) :
    (chunksOf bl l).length = (l.length - 1) / bl + 1 := by
  induction l using chunksOf.induct bl with
  | case1 => exact absurd rfl hne
  | case2 x xs ih =>
    rw [chunksOf]
    by_cases h : xs.drop (bl - 1) = []
    · have hlen : xs.length ≤ bl - 1 := by
        by_contra hcon
        have := List.length_drop (bl - 1) xs
        rw [h] at this
        simp at this
        omega
      rw [h, chunksOf_nil]
      have h0 : ((x :: xs).length - 1) / bl = 0 := by
        apply Nat.div_eq_of_lt
        simp
        omega
      rw [h0]
      simp
    · have hlen : bl - 1 < xs.length := by
        by_contra hcon
        rw [List.drop_of_length_le (by omega)] at h
        exact h rfl
      simp only [List.length_cons]
      rw [ih h]
      simp only [List.length_drop]
      have h2 : xs.length - (bl - 1) - 1 = xs.length - bl := by omega
      rw [h2]
      have h4 : (xs.length - bl) / bl + 1 = (xs.length - bl + bl) / bl := by
        rw [Nat.add_div_right _ (by omega)]
      have h5 : xs.length - bl + bl = xs.length := by omega
      rw [h5] at h4
      have h6 : xs.length + 1 - 1 = xs.length := by omega
      rw [h6]
      omega

theorem chunksOf_getD (bl : Nat) (hbl : 1 ≤ bl) (l : List α) (i : Nat)
    (hi : i < (chunksOf bl l).length) :
    (chunksOf bl l).getD i [] = (l.drop (i * bl)).take bl := by
  induction l using chunksOf.induct bl generalizing i with
  | case1 => simp at hi
  | case2 x xs ih =>
    rw [chunksOf] at hi ⊢
    match i with
    | 0 =>
      simp only [List.getD_cons_zero, Nat.zero_mul, List.drop_zero]
      rw [List.take_cons (by omega)]
    | i + 1 =>
      simp only [List.getD_cons_succ]
      rw [ih i (by simpa using hi), List.drop_drop]
      have h5 : (i + 1) * bl = i * bl + bl := by ring
      have hk : (i + 1) * bl = (bl - 1 + i * bl) + 1 := by omega
      rw [hk, List.drop_succ_cons]

/-! ### The external serialisation / compression libraries

`msgpack.packb` / `msgpack.unpackb`, `zlib.compress` / `zlib.decompress` and
`lz4.compress` / `lz4.decompress` are external libraries, not code of this
repository.  They are modelled as abstract functions; `LawfulCodec` states the
round-trip laws those libraries document.  The source selects the compression
and serialisation functions from name-indexed tables; since the writer stores
the very name the reader later looks up, both sides use the same functions,
which is what sharing one `Codec` value models.  The block container and the
index are always encoded with msgpack regardless of the chosen per-record
serializer (`msgpack_packb` is called directly in `_flush`, `_write_index` and
`_load_block`), hence the separate `packList` / `packIndex` fields. -/

structure Codec (ρ : Type) where
  /-- `self.serialize` (per record). -/
  ser : ρ → Bytes
  /-- `self.unserialize` (per record). -/
  unser : Bytes → ρ
  /-- `msgpack_packb` on a list of serialized records (block container). -/
  packList : List Bytes → Bytes
  /-- `msgpack_unpackb` of a block container. -/
  unpackList : Bytes → List Bytes
  /-- `msgpack_packb` of the index triple list. -/
  packIndex : List (Nat × Nat × Nat) → Bytes
  /-- `msgpack_unpackb` of the index. -/
  unpackIndex : Bytes → List (Nat × Nat × Nat)
  /-- `msgpack_packb` of the header map. -/
  packHeader : List (String × HVal) → Bytes
  /-- `msgpack_unpackb` of the header map. -/
  unpackHeader : Bytes → List (String × HVal)
  /-- `self.compress`. -/
  compress : Bytes → Bytes
  /-- the decompresser from `DECOMPRESSER_TABLE` for the same name. -/
  decompress : Bytes → Bytes

/-- The round-trip laws of the external libraries. -/
structure LawfulCodec {ρ : Type} (C : Codec ρ) : Prop where
  unser_ser : ∀ x, C.unser (C.ser x) = x
  unpackList_packList : ∀ l, C.unpackList (C.packList l) = l
  unpackIndex_packIndex : ∀ l, C.unpackIndex (C.packIndex l) = l
  unpackHeader_packHeader : ∀ h, C.unpackHeader (C.packHeader h) = h
  de_co : ∀ b, C.decompress (C.compress b) = b

/-! ### `DatasetWriter` -/

/-- The mutable state of a `DatasetWriter` / `DatasetAppender`, together with
the bytes of the file it has open and the file cursor. -/
structure WState (ρ : Type) where
  file : Bytes
  pos : Nat
  block_length : Nat
  length : Nat
  compression : String
  serializer : String
  cur_block : List Bytes
  cur_block_idx : Nat
  index : List (Nat × Nat × Nat)

/-- `DatasetWriter.__init__`: checks the parameters, truncates the file and
fills the header region with garbage bytes `chr(42)`. -/
def initW (ρ : Type) (bl : Nat) (compression serializer : String) :
    Except Err (WState ρ) :=
  if bl < 1 then .error .valueErr
  else if compression ∉ compressionNames then .error .valueErr
  else if serializer ∉ serializerNames then .error .valueErr
  else .ok { file := List.replicate HEADER_SPACE 42, pos := HEADER_SPACE,
             block_length := bl, length := 0,
             compression := compression, serializer := serializer,
             cur_block := [], cur_block_idx := 0, index := [] }

/-- `DatasetWriter._flush(force)`. -/
def flushW (C : Codec ρ) (force : Bool) (W : WState ρ) : Except Err (WState ρ) :=
  if W.cur_block.length ≠ W.block_length ∧ force = false then .error .valueErr
  else if W.cur_block = [] then .ok W
  else
    let block_start := W.pos
    let block_raw := C.packList W.cur_block
    let block_comp := C.compress block_raw
    let block_chksum := checksumB block_comp
    .ok { W with
      index := W.index ++ [(block_start, block_comp.length, block_raw.length)],
      file := writeAt W.file W.pos (block_chksum ++ block_comp),
      pos := W.pos + (block_chksum ++ block_comp).length,
      cur_block := [],
      cur_block_idx := W.cur_block_idx + 1 }

/-- `DatasetWriter.append(item)`. -/
def appendW (C : Codec ρ) (x : ρ) (W : WState ρ) : Except Err (WState ρ) := do
  let W ← if W.cur_block.length = W.block_length then flushW C false W else pure W
  .ok { W with cur_block := W.cur_block ++ [C.ser x], length := W.length + 1 }

/-- The body of the loop in `DatasetWriter.extend`. -/
def extendStep (C : Codec ρ) (W : WState ρ) (x : ρ) : Except Err (WState ρ) :=
  let W' := { W with cur_block := W.cur_block ++ [C.ser x], length := W.length + 1 }
  if W'.cur_block.length = W'.block_length then flushW C false W' else pure W'

/-- `DatasetWriter.extend(iterable)`. -/
def extendW (C : Codec ρ) (xs : List ρ) (W : WState ρ) : Except Err (WState ρ) := do
  let W ← if W.cur_block.length = W.block_length then flushW C false W else pure W
  xs.foldlM (extendStep C) W

/-- `DatasetWriter._write_index`: returns the updated state together with
`index_start`, `index_size` (compressed) and `index_size_raw` (uncompressed). -/
def writeIndexW (C : Codec ρ) (W : WState ρ) : WState ρ × Nat × Nat × Nat :=
  let index_start := W.pos
  let index_raw := C.packIndex W.index
  let index_comp := C.compress index_raw
  let index_chksum := checksumB index_comp
  ({ W with file := writeAt W.file W.pos (index_chksum ++ index_comp),
            pos := W.pos + (index_chksum ++ index_comp).length },
   index_start, index_comp.length, index_raw.length)

/-- The header map built by `DatasetWriter._write_header`.  NOTE: the source
stores the uncompressed index size under the key `"index_raw"` (line 391 of
`dset.py`), although the module docstring documents the key as
`"index_size_raw"`; the model reproduces the source. -/
def mkHeader (index_start index_size index_size_raw : Nat)
    (serializer compression : String) (block_length length : Nat) :
    List (String × HVal) :=
  [("index_start", .nat index_start),
   ("index_size", .nat index_size),
   ("index_raw", .nat index_size_raw),
   ("serializer", .str serializer),
   ("compression", .str compression),
   ("block_length", .nat block_length),
   ("length", .nat length)]

/-- `DatasetWriter._write_header`: asserts the encoded header fits into the
reserved `HEADER_SPACE` region, then writes preheader, checksum and header at
offset 0. -/
def writeHeaderW (C : Codec ρ) (W : WState ρ)
    (index_start index_size index_size_raw : Nat) : Except Err (WState ρ) :=
  let header := mkHeader index_start index_size index_size_raw
    W.serializer W.compression W.block_length W.length
  let header_raw := C.packHeader header
  let header_chksum := checksumB header_raw
  let pre_header := MAGIC ++ le16 VERSION ++ le32 header_raw.length
  if pre_header.length + header_raw.length + header_chksum.length < HEADER_SPACE then
    .ok { W with
      file := writeAt W.file 0 (pre_header ++ header_chksum ++ header_raw),
      pos := (pre_header ++ header_chksum ++ header_raw).length }
  else .error .assertFail

/-- `DatasetWriter.close` (the effectful part guarded by `runonce`). -/
def closeW (C : Codec ρ) (W : WState ρ) : Except Err (WState ρ) := do
  let W ← flushW C true W
  let (W', index_start, index_size, index_size_raw) := writeIndexW C W
  writeHeaderW C W' index_start index_size index_size_raw

/-! ### `DatasetReader` -/

/-- `read_preheader`: returns `(version, header_size)`. -/
def readPre (f : Bytes) : Except Err (Nat × Nat) :=
  if readAt f 0 12 = MAGIC then .ok (leDec (readAt f 12 2), leDec (readAt f 14 4))
  else .error .notDataset

/-- `read_header`: validates version and checksum, decodes the header map and
checks that the compression and serializer names are known. -/
def readHeaderB (C : Codec ρ) (f : Bytes) : Except Err (List (String × HVal)) := do
  let (version, hs) ← readPre f
  if version ≠ VERSION then throw (.badVersion version)
  let header_chksum := readAt f 18 CHECKSUM_LEN
  let header_raw := readAt f (18 + CHECKSUM_LEN) hs
  if checksumB header_raw ≠ header_chksum then throw .headerChecksum
  let header := C.unpackHeader header_raw
  let cname ← hgetStr header "compression"
  if cname ∉ compressionNames then throw (.unknownCompression cname)
  let sname ← hgetStr header "serializer"
  if sname ∉ serializerNames then throw (.unknownSerializer sname)
  .ok header

/-- `read_index`. -/
def readIndexB (C : Codec ρ) (f : Bytes) (index_start index_size : Nat) :
    Except Err (List (Nat × Nat × Nat)) :=
  let index_chksum := readAt f index_start CHECKSUM_LEN
  let index_comp := readAt f (index_start + CHECKSUM_LEN) index_size
  if checksumB index_comp ≠ index_chksum then .error .indexChecksum
  else .ok (C.unpackIndex (C.decompress index_comp))

/-- `read_block(fobj, index, n, decompress)`. -/
def readBlockB (C : Codec ρ) (f : Bytes) (index : List (Nat × Nat × Nat)) (n : Nat) :
    Except Err Bytes :=
  match index[n]? with
  | none => .error .assertFail
  | some (block_start, block_size, _) =>
    let block_chksum := readAt f block_start CHECKSUM_LEN
    let block_comp := readAt f (block_start + CHECKSUM_LEN) block_size
    if checksumB block_comp ≠ block_chksum then .error (.blockChecksum n)
    else .ok (C.decompress block_comp)

/-- The state of a `DatasetReader` after `__init__`.  The pair
`(cur_block_idx, cur_block)` (sentinel index `-1` meaning empty) is modelled as
an `Option`. -/
structure RState where
  file : Bytes
  index : List (Nat × Nat × Nat)
  block_length : Nat
  length : Nat
  cache : Option (Nat × List Bytes)

/-- `DatasetReader.__init__`. -/
def readerInitB (C : Codec ρ) (f : Bytes) : Except Err RState := do
  let header ← readHeaderB C f
  let index_start ← hgetNat header "index_start"
  let index_size ← hgetNat header "index_size"
  let index ← readIndexB C f index_start index_size
  let bl ← hgetNat header "block_length"
  let len ← hgetNat header "length"
  .ok { file := f, index := index, block_length := bl, length := len, cache := none }

/-- `DatasetReader._load_block(i)`. -/
def loadBlockB (C : Codec ρ) (st : RState) (i : Nat) : Except Err (List Bytes) := do
  let raw ← readBlockB C st.file st.index i
  .ok (C.unpackList raw)

/-- `list(DatasetReader.__iter__())`: load every block in index order and
unserialize every item. -/
def readerItemsB (C : Codec ρ) (st : RState) : Except Err (List ρ) :=
  (List.range st.index.length).foldlM (fun acc i => do
    let b ← loadBlockB C st i
    pure (acc ++ b.map C.unser)) []

/-- Open a reader on `f` and consume its iterator. -/
def readerListB (C : Codec ρ) (f : Bytes) : Except Err (List ρ) := do
  let st ← readerInitB C f
  readerItemsB C st

/-- `DatasetReader.get_idx(n)`: Python-style negative indices, `IndexError`
when out of range, one-block cache. -/
def getIdx (C : Codec ρ) (st : RState) (n : Int) : Except Err (ρ × RState) := do
  let n := if n < 0 then (st.length : Int) + n else n
  if n < 0 ∨ (st.length : Int) ≤ n then throw .indexOut
  let m := n.toNat
  let i := m / st.block_length
  let j := m % st.block_length
  let cur ← match st.cache with
    | some (ci, b) => if ci = i then pure b else loadBlockB C st i
    | none => loadBlockB C st i
  match cur[j]? with
  | some it => .ok (C.unser it, { st with cache := some (i, cur) })
  | none => .error .indexOut

/-! ### `DatasetReader.get_slice` and Python slice semantics -/

/-- The index-clamping step of CPython's `PySlice_AdjustIndices`. -/
def adjustIndex (v L step : Int) : Int :=
  if v < 0 then
    if v + L < 0 then (if step < 0 then -1 else 0) else v + L
  else if L ≤ v then (if step < 0 then L - 1 else L) else v

/-- `slice(start, stop, step).indices(length)` (CPython semantics; `None`
fields are `none`; a zero step raises `ValueError`). -/
def sliceIndices (start stop step : Option Int) (length : Nat) :
    Except Err (Int × Int × Int) :=
  let L : Int := length
  let st := step.getD 1
  if st = 0 then .error .valueErr
  else
    .ok (match start with
         | none => if st < 0 then L - 1 else 0
         | some v => adjustIndex v L st,
         match stop with
         | none => if st < 0 then -1 else L
         | some v => adjustIndex v L st,
         st)

/-- Number of elements of `xrange(start, stop, step)` (`step ≠ 0`). -/
def rangeCount (start stop step : Int) : Nat :=
  if 0 < step then (((stop - start) + step - 1).fdiv step).toNat
  else (((start - stop) + (-step) - 1).fdiv (-step)).toNat

/-- The elements of `xrange(start, stop, step)` in order (`step ≠ 0`). -/
def sliceRange (start stop step : Int) : List Int :=
  (List.range (rangeCount start stop step)).map (fun i => start + step * i)

/-- `list(DatasetReader.get_slice(start, stop, step))`.  The per-call local
block cache of the generator only avoids repeated loads of the same block and
cannot change the produced values (`_load_block` is deterministic and the file
is not mutated), so the model reloads blocks. -/
def getSliceList (C : Codec ρ) (st : RState) (start stop step : Option Int) :
    Except Err (List ρ) := do
  let (start, stop, step) ← sliceIndices start stop step st.length
  let n := (stop - start).fdiv step
  if n ≤ 0 then .ok []
  else if start < 0 ∨ (st.length : Int) ≤ start then throw .indexOut
  else
    let endi := start + (n - 1) * step
    if endi < 0 ∨ (st.length : Int) ≤ endi then throw .indexOut
    else
      (sliceRange start stop step).foldlM (fun (acc : List ρ) (k : Int) => do
        let m := k.toNat
        let i := m / st.block_length
        let j := m % st.block_length
        let b ← loadBlockB C st i
        match b[j]? with
        | some it => pure (acc ++ [C.unser it])
        | none => throw .indexOut) []

/-- Reference semantics (from the spec's words): Python's `data[n]` with
negative indices, `None` when out of range. -/
def pyGet (d : List ρ) (n : Int) : Option ρ :=
  let n := if n < 0 then (d.length : Int) + n else n
  if n < 0 ∨ (d.length : Int) ≤ n then none else d[n.toNat]?

/-- Reference semantics (from the spec's words): Python's `data[start:stop:step]`
under conventional sequence-slicing rules. -/
def pySliceVals (d : List ρ) (start stop step : Option Int) : Except Err (List ρ) := do
  let (start, stop, step) ← sliceIndices start stop step d.length
  .ok ((sliceRange start stop step).filterMap (fun k => d[k.toNat]?))

/-! ### `DatasetAppender` -/

/-- `DatasetAppender.__init__`: reread header and index, reload the trailing
partial block (if any) and drop its index entry, then seek to the first byte
after the previous session's index. -/
def appenderInitB (C : Codec ρ) (f : Bytes) : Except Err (WState ρ) := do
  let header ← readHeaderB C f
  let index_start ← hgetNat header "index_start"
  let index_size ← hgetNat header "index_size"
  let index ← readIndexB C f index_start index_size
  let bl ← hgetNat header "block_length"
  let len ← hgetNat header "length"
  let cname ← hgetStr header "compression"
  let sname ← hgetStr header "serializer"
  let pos := index_start + CHECKSUM_LEN + index_size
  if 0 < index.length then
    if len % bl ≠ 0 then do
      let raw ← readBlockB C f index (index.length - 1)
      .ok { file := f, pos := pos, block_length := bl, length := len,
            compression := cname, serializer := sname,
            cur_block := C.unpackList raw, cur_block_idx := index.length - 1,
            index := index.dropLast }
    else
      .ok { file := f, pos := pos, block_length := bl, length := len,
            compression := cname, serializer := sname,
            cur_block := [], cur_block_idx := index.length, index := index }
  else
    .ok { file := f, pos := pos, block_length := bl, length := len,
          compression := cname, serializer := sname,
          cur_block := [], cur_block_idx := 0, index := [] }

/-! ### `dset_sort` -/

/-- Modelled `np.argsort(keys)` by insertion sort on indices, comparing
`(key, index)` lexicographically.  numpy's default introsort degenerates to an
insertion sort on short arrays; for longer arrays its order on equal keys is
implementation defined, and any order consistent with the keys is a conforming
behaviour. -/
def insertIdx (keys : List Int) (i : Nat) : List Nat → List Nat
  | [] => [i]
  | j :: rest =>
    if keys.getD i 0 < keys.getD j 0 ∨ (keys.getD i 0 = keys.getD j 0 ∧ i ≤ j)
    then i :: j :: rest
    else j :: insertIdx keys i rest

/-- Modelled `np.argsort`. -/
def argsortM (keys : List Int) : List Nat :=
  (List.range keys.length).foldr (insertIdx keys) []

/-- `idxs.sort(key=lambda x: x[0])` on `(srci, dsti)` pairs (the source
indices within one pass are distinct, so any sort by first component agrees). -/
def insertBySrc (p : Nat × Nat) : List (Nat × Nat) → List (Nat × Nat)
  | [] => [p]
  | q :: rest => if p.1 ≤ q.1 then p :: q :: rest else q :: insertBySrc p rest

def sortBySrc (l : List (Nat × Nat)) : List (Nat × Nat) := l.foldr insertBySrc []

/-- `dset_sort(din, dout, keyfn, cache_blocks)`.

`embed` models Python's dynamic typing: the source caches the *serialized*
items it pulls out of `din`'s blocks (`cache[dsti] = cur_block[j]`, byte
strings) and then hands them to `dout.extend`, which treats them as records
and serializes them again; `embed` is the inclusion of byte strings into the
record type.  The `show_progress` branches and the persistent source-block
cache are performance-only and are not modelled (block loads are
deterministic). -/
def dsetSortM (C : Codec ρ) (embed : Bytes → ρ) (keyfn : ρ → Int)
    (cacheBlocks : Nat) (din : RState) (dout : WState ρ) :
    Except Err (WState ρ) := do
  let objs ← readerItemsB C din
  let keys := objs.map keyfn
  let key_order := argsortM keys
  let cache_size := cacheBlocks * din.block_length
  (chunksOf cache_size key_order).foldlM (fun dout idxs0 => do
    let idxs := sortBySrc (idxs0.enum.map (fun p => (p.2, p.1)))
    let cache ← idxs.foldlM (fun (cache : List Bytes) (sd : Nat × Nat) => do
      let i := sd.1 / din.block_length
      let j := sd.1 % din.block_length
      let b ← loadBlockB C din i
      match b[j]? with
      | some it => pure (cache.set sd.2 it)
      | none => throw .indexOut) (List.replicate idxs0.length [])
    extendW C (cache.map embed) dout) dout

/-! ### A concrete lawful codec

Used to instantiate the abstract theorems on explicit inputs (witnesses and
counterexamples).  `Val` plays the role of Python values: integers and byte
strings; the encoders below are executable retraction pairs standing in for
msgpack / zlib / lz4. -/

/-- A record value: an integer or a byte string. -/
inductive Val where
  | vint (n : Int)
  | vbytes (b : List Nat)
  deriving DecidableEq

/-- Concrete per-record serializer. -/
def serV : Val → Bytes
  | .vint n => if n < 0 then [0, 1, n.natAbs] else [0, 0, n.natAbs]
  | .vbytes b => 1 :: b

/-- Concrete per-record deserializer (left inverse of `serV`). -/
def unserV : Bytes → Val
  | 0 :: 1 :: m :: _ => .vint (-(m : Int))
  | 0 :: 0 :: m :: _ => .vint (m : Int)
  | 1 :: b => .vbytes b
  | _ => .vint 0

theorem unserV_serV (v : Val) : unserV (serV v) = v := by
  match v with
  | .vint n =>
    by_cases h : n < 0
    · simp only [serV, if_pos h, unserV]
      congr 1
      omega
    · simp only [serV, if_neg h, unserV]
      congr 1
      omega
  | .vbytes b => rfl

/-- Concrete length-prefixed container encoding (stands in for msgpack's
list-of-byte-strings container). -/
def packL0 : List Bytes → Bytes
  | [] => []
  | b :: bs => b.length :: (b ++ packL0 bs)

def unpackL0F : Nat → Bytes → List Bytes
  | 0, _ => []
  | _ + 1, [] => []
  | fuel + 1, n :: rest => rest.take n :: unpackL0F fuel (rest.drop n)

def unpackL0 (b : Bytes) : List Bytes := unpackL0F b.length b

theorem unpackL0F_le : ∀ (fuel fuel' : Nat) (b : Bytes), b.length ≤ fuel →
    b.length ≤ fuel' → unpackL0F fuel b = unpackL0F fuel' b := by
  intro fuel
  induction fuel with
  | zero =>
    intro fuel' b h h'
    have hb : b = [] := List.eq_nil_of_length_eq_zero (by omega)
    subst hb
    cases fuel' <;> rfl
  | succ f ih =>
    intro fuel' b h h'
    cases b with
    | nil => cases fuel' <;> rfl
    | cons n rest =>
      rw [List.length_cons] at h h'
      cases fuel' with
      | zero => omega
      | succ f' =>
        show rest.take n :: unpackL0F f (rest.drop n) =
          rest.take n :: unpackL0F f' (rest.drop n)
        congr 1
        exact ih f' (rest.drop n) (by rw [List.length_drop]; omega)
          (by rw [List.length_drop]; omega)

theorem unpackL0_cons (n : Nat) (rest : Bytes) :
    unpackL0 (n :: rest) = rest.take n :: unpackL0 (rest.drop n) := by
  rw [unpackL0, unpackL0, List.length_cons]
  show rest.take n :: unpackL0F rest.length (rest.drop n) = _
  congr 1
  exact unpackL0F_le rest.length (rest.drop n).length (rest.drop n)
    (by rw [List.length_drop]; omega) (Nat.le_refl _)

theorem unpackL0_packL0 (bs : List Bytes) : unpackL0 (packL0 bs) = bs := by
  induction bs with
  | nil => rfl
  | cons b rest ih =>
    rw [packL0, unpackL0_cons, List.take_left, List.drop_left, ih]

/-- Concrete index encoding: the flattened triples. -/
def packI0 : List (Nat × Nat × Nat) → Bytes
  | [] => []
  | (a, b, c) :: rest => a :: b :: c :: packI0 rest

def unpackI0 : Bytes → List (Nat × Nat × Nat)
  | a :: b :: c :: rest => (a, b, c) :: unpackI0 rest
  | _ => []

theorem unpackI0_packI0 (l : List (Nat × Nat × Nat)) : unpackI0 (packI0 l) = l := by
  induction l with
  | nil => rfl
  | cons t rest ih =>
    match t with
    | (a, b, c) => rw [packI0, unpackI0, ih]

/-- Concrete header-value encoding. -/
def encHV : HVal → Bytes
  | .nat n => 0 :: [n]
  | .str s => 1 :: (s.toList.map Char.toNat)

/-- One header entry: length-prefixed key characters, then the value. -/
def encEntry (p : String × HVal) : Bytes :=
  p.1.toList.length :: ((p.1.toList.map Char.toNat) ++ encHV p.2)

def decEntry (b : Bytes) : String × HVal :=
  match b with
  | n :: rest =>
    let k := String.mk ((rest.take n).map Char.ofNat)
    match rest.drop n with
    | 0 :: m :: _ => (k, .nat m)
    | 1 :: cs => (k, .str (String.mk (cs.map Char.ofNat)))
    | _ => (k, .nat 0)
  | [] => ("", .nat 0)

theorem ofNat_comp_toNat : (Char.ofNat ∘ Char.toNat) = id := by
  funext c
  exact Char.ofNat_toNat c

theorem decEntry_encEntry (p : String × HVal) : decEntry (encEntry p) = p := by
  match p with
  | (k, v) =>
    have hmk : String.mk k.toList = k := by cases k; rfl
    have htake : ∀ t : Bytes, ((k.toList.map Char.toNat) ++ t).take k.toList.length =
        k.toList.map Char.toNat := fun t => by
      rw [List.take_append_of_le_length (by simp), List.take_of_length_le (by simp)]
    have hdrop : ∀ t : Bytes, ((k.toList.map Char.toNat) ++ t).drop k.toList.length = t :=
      fun t => by
      rw [List.drop_append_of_le_length (by simp)]
      simp
    match v with
    | .nat n =>
      simp only [encEntry, encHV, decEntry, htake, hdrop, List.map_map,
        ofNat_comp_toNat, List.map_id, hmk]
    | .str s =>
      have hmks : String.mk s.toList = s := by cases s; rfl
      simp only [encEntry, encHV, decEntry, htake, hdrop, List.map_map,
        ofNat_comp_toNat, List.map_id, hmk, hmks]

/-- Concrete header encoding: length-prefixed entries. -/
def packH0 (h : List (String × HVal)) : Bytes := packL0 (h.map encEntry)

def unpackH0 (b : Bytes) : List (String × HVal) := (unpackL0 b).map decEntry

theorem unpackH0_packH0 (h : List (String × HVal)) : unpackH0 (packH0 h) = h := by
  rw [unpackH0, packH0, unpackL0_packL0, List.map_map]
  have hde : (decEntry ∘ encEntry) = id := by
    funext p
    exact decEntry_encEntry p
  rw [hde, List.map_id]

/-- The concrete codec (identity compression). -/
def CV : Codec Val :=
  { ser := serV, unser := unserV,
    packList := packL0, unpackList := unpackL0,
    packIndex := packI0, unpackIndex := unpackI0,
    packHeader := packH0, unpackHeader := unpackH0,
    compress := id, decompress := id }

theorem CV_lawful : LawfulCodec CV :=
  { unser_ser := unserV_serV,
    unpackList_packList := unpackL0_packL0,
    unpackIndex_packIndex := unpackI0_packI0,
    unpackHeader_packHeader := unpackH0_packH0,
    de_co := fun _ => rfl }

/-! ### The layout of a closed dataset file -/

/-- Compressed bytes of one block holding the serialized records `c`. -/
def blockComp (C : Codec ρ) (c : List Bytes) : Bytes := C.compress (C.packList c)

/-- Checksum plus compressed payload, as written by `_flush`. -/
def encBlock (C : Codec ρ) (c : List Bytes) : Bytes :=
  checksumB (blockComp C c) ++ blockComp C c

/-- The blocks of the record sequence `d`. -/
def chunksD (C : Codec ρ) (bl : Nat) (d : List ρ) : List (List Bytes) :=
  chunksOf bl (d.map C.ser)

/-- The index triples for blocks `cs` located at offsets `starts`. -/
def idxOf (C : Codec ρ) (starts : List Nat) (cs : List (List Bytes)) :
    List (Nat × Nat × Nat) :=
  List.zipWith (fun s c => (s, (blockComp C c).length, (C.packList c).length)) starts cs

/-- The concrete byte layout of one closed dataset file: header byte count,
index offset, compressed index size, block offsets. -/
structure Layout where
  hs : Nat
  istart : Nat
  isize : Nat
  starts : List Nat

/-- Index triples of a laid-out file. -/
def idxL (C : Codec ρ) (bl : Nat) (L : Layout) (d : List ρ) : List (Nat × Nat × Nat) :=
  idxOf C L.starts (chunksD C bl d)

/-- Compressed index bytes of a laid-out file. -/
def icompOf (C : Codec ρ) (bl : Nat) (L : Layout) (d : List ρ) : Bytes :=
  C.compress (C.packIndex (idxL C bl L d))

/-- The header map of a laid-out file (as `_write_header` builds it). -/
def hdrOf (C : Codec ρ) (bl : Nat) (cname sname : String) (L : Layout) (d : List ρ) :
    List (String × HVal) :=
  mkHeader L.istart L.isize (C.packIndex (idxL C bl L d)).length
    sname cname bl d.length

/-- msgpack bytes of the header map of a laid-out file. -/
def hrawOf (C : Codec ρ) (bl : Nat) (cname sname : String) (L : Layout) (d : List ρ) :
    Bytes :=
  C.packHeader (hdrOf C bl cname sname L d)

/-- `f` is a closed dataset file with layout `L` holding the records `d`:
the exact structural facts established by `DatasetWriter.close`. -/
structure GoodAt (C : Codec ρ) (bl : Nat) (cname sname : String) (L : Layout)
    (f : Bytes) (d : List ρ) : Prop where
  hbl : 1 ≤ bl
  hcname : cname ∈ compressionNames
  hsname : sname ∈ serializerNames
  hstarts : L.starts.length = (chunksD C bl d).length
  hlow : ∀ s ∈ L.starts, HEADER_SPACE ≤ s
  histart : HEADER_SPACE ≤ L.istart
  hisize : L.isize = (icompOf C bl L d).length
  hhs : L.hs = (hrawOf C bl cname sname L d).length
  hfit : 18 + L.hs + 8 < HEADER_SPACE
  hpre : readAt f 0 18 = MAGIC ++ (le16 VERSION ++ le32 L.hs)
  hchk : readAt f 18 8 = checksumB (hrawOf C bl cname sname L d)
  hraw : readAt f 26 L.hs = hrawOf C bl cname sname L d
  hidx : readAt f L.istart (8 + L.isize) =
    checksumB (icompOf C bl L d) ++ icompOf C bl L d
  hblocks : ∀ i, i < (chunksD C bl d).length →
    readAt f (L.starts.getD i 0) (8 + (blockComp C ((chunksD C bl d).getD i [])).length) =
      encBlock C ((chunksD C bl d).getD i [])
  hEOF : f.length = L.istart + 8 + L.isize

/-- `g` agrees with `f` on every read that stays inside `f`. -/
def ExtOf (f g : Bytes) : Prop :=
  ∀ p n, p + n ≤ f.length → readAt g p n = readAt f p n

/-- `g` agrees with `f` on every read inside the header region of layout `L`. -/
def HdrReads (L : Layout) (f g : Bytes) : Prop :=
  ∀ p n, p + n ≤ 26 + L.hs → readAt g p n = readAt f p n

theorem extOf_self (f : Bytes) : ExtOf f f := fun _ _ _ => rfl

theorem extOf_append (f t : Bytes) : ExtOf f (f ++ t) :=
  fun p n h => readAt_append_left f t p n h

theorem extOf_trans_append (f g t : Bytes) (h : ExtOf f g) : ExtOf f (g ++ t) := by
  intro p n hpn
  rcases Nat.eq_zero_or_pos n with hn | hn
  · subst hn
    simp [readAt]
  · have heq := h p n hpn
    have hlen : (readAt g p n).length = n := by
      rw [heq, length_readAt]
      omega
    have hb : p + n ≤ g.length := readAt_length_le g p n hn hlen
    rw [readAt_append_left g t p n hb, heq]

theorem readAt_split (f : Bytes) (p : Nat) (a rest : Bytes) (n : Nat)
    (hn : rest.length = n) (h : readAt f p (a.length + n) = a ++ rest) :
    readAt f p a.length = a ∧ readAt f (p + a.length) n = rest := by
  rw [readAt_add] at h
  have hl1 : (readAt f p a.length).length ≤ a.length := by
    rw [length_readAt]; omega
  have hl2 : (readAt f (p + a.length) n).length ≤ n := by
    rw [length_readAt]; omega
  have htot : (readAt f p a.length).length + (readAt f (p + a.length) n).length
      = a.length + rest.length := by
    have := congrArg List.length h
    simpa using this
  have hfst : (readAt f p a.length).length = a.length := by omega
  exact List.append_inj h hfst

theorem length_checksumB (data : Bytes) : (checksumB data).length = 8 := by
  simp [checksumB, le32]

theorem length_encBlock (C : Codec ρ) (c : List Bytes) :
    (encBlock C c).length = 8 + (blockComp C c).length := by
  simp [encBlock, length_checksumB]

theorem leDec_le32 (n : Nat) (h : n < 4294967296) : leDec (le32 n) = n := by
  simp only [le32, leDec]
  omega

theorem leDec_le16_version : leDec (le16 VERSION) = VERSION := by decide

namespace GoodAt

variable {ρ : Type} {C : Codec ρ} {bl : Nat} {cname sname : String} {L : Layout}
  {f : Bytes} {d : List ρ}

theorem flen (good : GoodAt C bl cname sname L f d) : HEADER_SPACE + 8 ≤ f.length := by
  have h1 := good.histart
  have h2 := good.hEOF
  omega

theorem hdrReads (good : GoodAt C bl cname sname L f d) (g : Bytes) (hg : ExtOf f g) :
    HdrReads L f g := by
  intro p n hpn
  have hflen := good.flen
  have hfit := good.hfit
  exact hg p n (by simp [HEADER_SPACE] at hflen hfit; omega)

theorem hpre12 (good : GoodAt C bl cname sname L f d) (g : Bytes) (hg : HdrReads L f g) :
    readAt g 0 12 = MAGIC ∧ readAt g 12 2 = le16 VERSION ∧ readAt g 14 4 = le32 L.hs := by
  have h18 : readAt g 0 18 = MAGIC ++ (le16 VERSION ++ le32 L.hs) := by
    rw [hg 0 18 (by omega)]
    exact good.hpre
  have hsplit1 := readAt_split g 0 MAGIC (le16 VERSION ++ le32 L.hs) 6
    (by simp [le16, le32]) (by simpa using h18)
  have hm : MAGIC.length = 12 := by decide
  rw [hm] at hsplit1
  obtain ⟨h12, h6⟩ := hsplit1
  have hsplit2 := readAt_split g 12 (le16 VERSION) (le32 L.hs) 4
    (by simp [le32]) (by simpa [le16] using h6)
  have hl : (le16 VERSION).length = 2 := by decide
  rw [hl] at hsplit2
  obtain ⟨h2, h4⟩ := hsplit2
  exact ⟨h12, h2, by simpa using h4⟩

theorem readPre_good (good : GoodAt C bl cname sname L f d) (g : Bytes) (hg : HdrReads L f g) :
    readPre g = .ok (VERSION, L.hs) := by
  obtain ⟨h12, h2, h4⟩ := good.hpre12 g hg
  rw [readPre, if_pos h12, h2, h4, leDec_le16_version,
    leDec_le32 L.hs (by have := good.hfit; simp [HEADER_SPACE] at this; omega)]

theorem hchk_ext (good : GoodAt C bl cname sname L f d) (g : Bytes) (hg : HdrReads L f g) :
    readAt g 18 8 = checksumB (hrawOf C bl cname sname L d) := by
  rw [hg 18 8 (by omega)]
  exact good.hchk

theorem hraw_ext (good : GoodAt C bl cname sname L f d) (g : Bytes) (hg : HdrReads L f g) :
    readAt g 26 L.hs = hrawOf C bl cname sname L d := by
  rw [hg 26 L.hs (by omega)]
  exact good.hraw

end GoodAt

theorem hgetStr_compression (a b c : Nat) (sn cn : String) (bl len : Nat) :
    hgetStr (mkHeader a b c sn cn bl len) "compression" = .ok cn := rfl

theorem hgetStr_serializer (a b c : Nat) (sn cn : String) (bl len : Nat) :
    hgetStr (mkHeader a b c sn cn bl len) "serializer" = .ok sn := rfl

theorem hgetNat_index_start (a b c : Nat) (sn cn : String) (bl len : Nat) :
    hgetNat (mkHeader a b c sn cn bl len) "index_start" = .ok a := rfl

theorem hgetNat_index_size (a b c : Nat) (sn cn : String) (bl len : Nat) :
    hgetNat (mkHeader a b c sn cn bl len) "index_size" = .ok b := rfl

theorem hgetNat_block_length (a b c : Nat) (sn cn : String) (bl len : Nat) :
    hgetNat (mkHeader a b c sn cn bl len) "block_length" = .ok bl := rfl

theorem hgetNat_length (a b c : Nat) (sn cn : String) (bl len : Nat) :
    hgetNat (mkHeader a b c sn cn bl len) "length" = .ok len := rfl

theorem readHeaderB_good {ρ : Type} {C : Codec ρ} {bl : Nat} {cname sname : String}
    {L : Layout} {f : Bytes} {d : List ρ}
    (lawC : LawfulCodec C) (good : GoodAt C bl cname sname L f d)
    (g : Bytes) (hg : HdrReads L f g) :
    readHeaderB C g = .ok (hdrOf C bl cname sname L d) := by
  have hpre := good.readPre_good g hg
  have hchk := good.hchk_ext g hg
  have hraw := good.hraw_ext g hg
  rw [readHeaderB, hpre]
  simp only [Bind.bind, Except.bind, CHECKSUM_LEN]
  rw [if_neg (by decide : ¬(VERSION ≠ VERSION))]
  rw [show (18 + 8 : Nat) = 26 from rfl, hchk, hraw]
  rw [if_neg (by simp)]
  rw [show C.unpackHeader (hrawOf C bl cname sname L d) = hdrOf C bl cname sname L d from
    lawC.unpackHeader_packHeader _]
  rw [hdrOf, hgetStr_compression, hgetStr_serializer]
  simp only [Pure.pure, Except.pure]
  rw [if_neg (by simpa using good.hcname), if_neg (by simpa using good.hsname)]

theorem ok_bind {ε α β : Type} (a : α) (f : α → Except ε β) :
    (Except.ok a >>= f : Except ε β) = f a := rfl

theorem readIndexB_good {ρ : Type} {C : Codec ρ} {bl : Nat} {cname sname : String}
    {L : Layout} {f : Bytes} {d : List ρ}
    (lawC : LawfulCodec C) (good : GoodAt C bl cname sname L f d)
    (g : Bytes) (hg : ExtOf f g) :
    readIndexB C g L.istart L.isize = .ok (idxL C bl L d) := by
  have hEOF := good.hEOF
  have h8 : readAt g L.istart (8 + L.isize) =
      checksumB (icompOf C bl L d) ++ icompOf C bl L d := by
    rw [hg _ _ (by omega)]
    exact good.hidx
  obtain ⟨hcs, hcomp⟩ := readAt_split g L.istart (checksumB (icompOf C bl L d))
    (icompOf C bl L d) L.isize good.hisize.symm
    (by rw [length_checksumB]; exact h8)
  rw [length_checksumB] at hcs hcomp
  rw [readIndexB]
  simp only [CHECKSUM_LEN]
  rw [hcs, hcomp, if_neg (by simp)]
  rw [icompOf, lawC.de_co, lawC.unpackIndex_packIndex]

theorem idxL_getElem? {ρ : Type} {C : Codec ρ} {bl : Nat} {cname sname : String}
    {L : Layout} {f : Bytes} {d : List ρ}
    (good : GoodAt C bl cname sname L f d) (i : Nat) (hi : i < (chunksD C bl d).length) :
    (idxL C bl L d)[i]? = some (L.starts.getD i 0,
      (blockComp C ((chunksD C bl d).getD i [])).length,
      (C.packList ((chunksD C bl d).getD i [])).length) := by
  have hst := good.hstarts
  rw [idxL, idxOf]
  rw [List.getElem?_eq_getElem (by rw [List.length_zipWith]; omega)]
  rw [List.getElem_zipWith]
  rw [List.getD_eq_getElem _ _ (by omega), List.getD_eq_getElem _ _ hi]

theorem idxL_length {ρ : Type} {C : Codec ρ} {bl : Nat} {cname sname : String}
    {L : Layout} {f : Bytes} {d : List ρ}
    (good : GoodAt C bl cname sname L f d) :
    (idxL C bl L d).length = (chunksD C bl d).length := by
  have hst := good.hstarts
  rw [idxL, idxOf, List.length_zipWith]
  omega

theorem readBlockB_good {ρ : Type} {C : Codec ρ} {bl : Nat} {cname sname : String}
    {L : Layout} {f : Bytes} {d : List ρ}
    (lawC : LawfulCodec C) (good : GoodAt C bl cname sname L f d)
    (g : Bytes) (hg : ExtOf f g) (i : Nat) (hi : i < (chunksD C bl d).length) :
    readBlockB C g (idxL C bl L d) i = .ok (C.packList ((chunksD C bl d).getD i [])) := by
  have hb := good.hblocks i hi
  have hlen : (readAt f (L.starts.getD i 0)
      (8 + (blockComp C ((chunksD C bl d).getD i [])).length)).length =
      8 + (blockComp C ((chunksD C bl d).getD i [])).length := by
    rw [hb, length_encBlock]
  have hbound := readAt_length_le f _ _ (by omega) hlen
  have hbg : readAt g (L.starts.getD i 0)
      (8 + (blockComp C ((chunksD C bl d).getD i [])).length) =
      encBlock C ((chunksD C bl d).getD i []) := by
    rw [hg _ _ hbound]
    exact hb
  rw [encBlock] at hbg
  obtain ⟨hcs, hcomp⟩ := readAt_split g (L.starts.getD i 0)
    (checksumB (blockComp C ((chunksD C bl d).getD i [])))
    (blockComp C ((chunksD C bl d).getD i []))
    (blockComp C ((chunksD C bl d).getD i [])).length rfl
    (by rw [length_checksumB]; exact hbg)
  rw [length_checksumB] at hcs hcomp
  rw [readBlockB, idxL_getElem? good i hi]
  simp only [CHECKSUM_LEN]
  rw [hcs, hcomp, if_neg (by simp)]
  rw [blockComp, lawC.de_co]

/-- The reader state that `DatasetReader.__init__` produces on a good file. -/
def stOf (C : Codec ρ) (bl : Nat) (L : Layout) (g : Bytes) (d : List ρ) : RState :=
  { file := g, index := idxL C bl L d, block_length := bl, length := d.length,
    cache := none }

theorem readerInitB_good {ρ : Type} {C : Codec ρ} {bl : Nat} {cname sname : String}
    {L : Layout} {f : Bytes} {d : List ρ}
    (lawC : LawfulCodec C) (good : GoodAt C bl cname sname L f d)
    (g : Bytes) (hg : ExtOf f g) :
    readerInitB C g = .ok (stOf C bl L g d) := by
  rw [readerInitB, readHeaderB_good lawC good g (good.hdrReads g hg), ok_bind]
  rw [hdrOf, hgetNat_index_start, ok_bind, hgetNat_index_size, ok_bind]
  rw [show mkHeader L.istart L.isize (C.packIndex (idxL C bl L d)).length
      sname cname bl d.length = hdrOf C bl cname sname L d from rfl]
  rw [readIndexB_good lawC good g hg, ok_bind]
  rw [hdrOf, hgetNat_block_length, ok_bind, hgetNat_length, ok_bind]
  rfl

theorem loadBlockB_good {ρ : Type} {C : Codec ρ} {bl : Nat} {cname sname : String}
    {L : Layout} {f : Bytes} {d : List ρ}
    (lawC : LawfulCodec C) (good : GoodAt C bl cname sname L f d)
    (g : Bytes) (hg : ExtOf f g) (i : Nat) (hi : i < (chunksD C bl d).length) :
    loadBlockB C (stOf C bl L g d) i = .ok ((chunksD C bl d).getD i []) := by
  rw [loadBlockB]
  simp only [stOf]
  rw [readBlockB_good lawC good g hg i hi]
  simp only [Bind.bind, Except.bind]
  rw [lawC.unpackList_packList]

theorem foldlM_blocks {ρ : Type} {C : Codec ρ} {bl : Nat} {cname sname : String}
    {L : Layout} {f : Bytes} {d : List ρ}
    (lawC : LawfulCodec C) (good : GoodAt C bl cname sname L f d)
    (g : Bytes) (hg : ExtOf f g) :
    ∀ (is : List Nat), (∀ i ∈ is, i < (chunksD C bl d).length) → ∀ acc : List ρ,
    is.foldlM (fun acc i => do
        let b ← loadBlockB C (stOf C bl L g d) i
        pure (acc ++ b.map C.unser)) acc =
      .ok (acc ++ (is.map (fun i => ((chunksD C bl d).getD i []).map C.unser)).flatten) := by
  intro is
  induction is with
  | nil =>
    intro _ acc
    simp only [List.foldlM_nil, List.map_nil, List.flatten_nil, List.append_nil]
    rfl
  | cons i rest ih =>
    intro hmem acc
    rw [List.foldlM_cons]
    rw [loadBlockB_good lawC good g hg i (hmem i (by simp)), ok_bind, pure_bind]
    rw [ih (fun j hj => hmem j (by simp [hj]))]
    simp

theorem map_range_getD {β : Type} (cs : List (List Bytes)) (F : List Bytes → β) :
    (List.range cs.length).map (fun i => F (cs.getD i [])) = cs.map F := by
  induction cs with
  | nil => simp
  | cons c rest ih =>
    rw [List.length_cons, List.range_succ_eq_map, List.map_cons, List.map_map,
      List.getD_cons_zero, List.map_cons]
    have htail : (List.range rest.length).map
        ((fun i => F ((c :: rest).getD i [])) ∘ (fun i => i + 1)) = rest.map F := by
      rw [← ih]
      apply List.map_congr_left
      intro i _
      simp
    rw [← htail]

theorem readerItemsB_good {ρ : Type} {C : Codec ρ} {bl : Nat} {cname sname : String}
    {L : Layout} {f : Bytes} {d : List ρ}
    (lawC : LawfulCodec C) (good : GoodAt C bl cname sname L f d)
    (g : Bytes) (hg : ExtOf f g) :
    readerItemsB C (stOf C bl L g d) = .ok d := by
  rw [readerItemsB]
  have hlen : (stOf C bl L g d).index.length = (chunksD C bl d).length := by
    simp only [stOf]
    exact idxL_length good
  rw [hlen]
  rw [foldlM_blocks lawC good g hg (List.range (chunksD C bl d).length)
    (fun i hi => List.mem_range.mp hi) []]
  rw [map_range_getD (chunksD C bl d) (fun c => c.map C.unser)]
  rw [← List.map_flatten, chunksD, chunksOf_flatten, List.map_map]
  have hid : (C.unser ∘ C.ser) = id := funext (fun x => lawC.unser_ser x)
  rw [hid, List.map_id, List.nil_append]

theorem readerListB_good {ρ : Type} {C : Codec ρ} {bl : Nat} {cname sname : String}
    {L : Layout} {f : Bytes} {d : List ρ}
    (lawC : LawfulCodec C) (good : GoodAt C bl cname sname L f d)
    (g : Bytes) (hg : ExtOf f g) :
    readerListB C g = .ok d := by
  rw [readerListB, readerInitB_good lawC good g hg]
  simp only [Bind.bind, Except.bind]
  exact readerItemsB_good lawC good g hg

/-! ### The writer invariant -/

theorem readAt_writeAt_zero (f data : Bytes) (pos n : Nat) (h : data.length ≤ pos) :
    readAt (writeAt f 0 data) pos n = readAt f pos n := by
  rw [writeAt_zero]
  apply List.ext_getElem?
  intro i
  simp only [readAt, List.getElem?_take, List.getElem?_drop]
  split
  · next hi =>
    rw [List.getElem?_append_right (by omega)]
    rw [List.getElem?_drop]
    congr 1
    omega
  · rfl

theorem getD_append_lt {α : Type} (l : List α) (x dflt : α) (i : Nat) (hi : i < l.length) :
    (l ++ [x]).getD i dflt = l.getD i dflt := by
  rw [List.getD_eq_getElem?_getD, List.getD_eq_getElem?_getD,
    List.getElem?_append_left hi]

theorem getD_append_last {α : Type} (l : List α) (x dflt : α) :
    (l ++ [x]).getD l.length dflt = x := by
  rw [List.getD_eq_getElem?_getD, List.getElem?_append_right (le_refl _)]
  simp

theorem getD_mem_of_lt {α : Type} (l : List α) (dflt : α) (i : Nat) (hi : i < l.length) :
    l.getD i dflt ∈ l := by
  rw [List.getD_eq_getElem _ _ hi]
  exact List.getElem_mem hi

/-- Everything `append` / `extend` / `close` rely on mid-session: the file
holds the garbage header region and the flushed blocks `flushed` at offsets
`starts`, the current block holds the not-yet-flushed tail of `written`, and
the cursor sits at the end of the file. -/
structure WInv (C : Codec ρ) (bl : Nat) (cname sname : String)
    (flushed : List (List Bytes)) (starts : List Nat) (written : List ρ)
    (W : WState ρ) : Prop where
  hpos : W.pos = W.file.length
  hmin : HEADER_SPACE ≤ W.file.length
  hbl : W.block_length = bl
  hbl1 : 1 ≤ bl
  hcomp : W.compression = cname
  hser : W.serializer = sname
  hcn : cname ∈ compressionNames
  hsn : sname ∈ serializerNames
  hlen : W.length = written.length
  hcur : W.cur_block.length ≤ bl
  hsplit : written.map C.ser = flushed.flatten ++ W.cur_block
  hfull : ∀ c ∈ flushed, c.length = bl
  hidx : W.index = idxOf C starts flushed
  hslen : starts.length = flushed.length
  hlow : ∀ s ∈ starts, HEADER_SPACE ≤ s
  hblocks : ∀ i, i < flushed.length →
    readAt W.file (starts.getD i 0) (8 + (blockComp C (flushed.getD i [])).length) =
      encBlock C (flushed.getD i [])

/-- The state after `initW` succeeds. -/
def initState (ρ : Type) (bl : Nat) (cname sname : String) : WState ρ :=
  { file := List.replicate HEADER_SPACE 42, pos := HEADER_SPACE,
    block_length := bl, length := 0,
    compression := cname, serializer := sname,
    cur_block := [], cur_block_idx := 0, index := [] }

theorem initW_ok (ρ : Type) (bl : Nat) (cname sname : String) (hbl : 1 ≤ bl)
    (hcn : cname ∈ compressionNames) (hsn : sname ∈ serializerNames) :
    initW ρ bl cname sname = .ok (initState ρ bl cname sname) := by
  rw [initW, if_neg (by omega), if_neg (by simpa using hcn), if_neg (by simpa using hsn)]
  rfl

theorem initW_inv (C : Codec ρ) (bl : Nat) (cname sname : String) (hbl : 1 ≤ bl)
    (hcn : cname ∈ compressionNames) (hsn : sname ∈ serializerNames) :
    WInv C bl cname sname [] [] [] (initState ρ bl cname sname) := by
  refine ⟨?_, ?_, rfl, hbl, rfl, rfl, hcn, hsn, rfl, ?_, rfl, ?_, rfl, rfl, ?_, ?_⟩
  · simp [initState]
  · simp [initState]
  · simp [initState]
  · intro c hc
    simp at hc
  · intro s hs
    simp at hs
  · intro i hi
    simp at hi

/-- The state `_flush` writes when the current block is non-empty. -/
def flushState (C : Codec ρ) (W : WState ρ) : WState ρ :=
  { W with
    index := W.index ++
      [(W.pos, (blockComp C W.cur_block).length, (C.packList W.cur_block).length)],
    file := writeAt W.file W.pos (encBlock C W.cur_block),
    pos := W.pos + (encBlock C W.cur_block).length,
    cur_block := [],
    cur_block_idx := W.cur_block_idx + 1 }

theorem flushW_eq_of_ne (C : Codec ρ) (force : Bool) (W : WState ρ)
    (hne : W.cur_block ≠ [])
    (hok : W.cur_block.length = W.block_length ∨ force = true) :
    flushW C force W = .ok (flushState C W) := by
  rw [flushW, if_neg (by push_neg; intro h; rcases hok with h' | h'; omega; simp [h'])]
  rw [if_neg hne]
  rfl

theorem flushW_empty (C : Codec ρ) (force : Bool) (W : WState ρ)
    (he : W.cur_block = [])
    (hok : W.cur_block.length = W.block_length ∨ force = true) :
    flushW C force W = .ok W := by
  rw [flushW, if_neg (by push_neg; intro h; rcases hok with h' | h'; omega; simp [h'])]
  rw [if_pos he]

theorem flushState_inv {C : Codec ρ} {bl : Nat} {cname sname : String}
    {flushed : List (List Bytes)} {starts : List Nat} {written : List ρ} {W : WState ρ}
    (inv : WInv C bl cname sname flushed starts written W)
    (hfl : W.cur_block.length = bl) (hne : W.cur_block ≠ []) :
    WInv C bl cname sname (flushed ++ [W.cur_block]) (starts ++ [W.pos]) written
      (flushState C W) ∧
    (flushState C W).file = W.file ++ encBlock C W.cur_block ∧
    ((flushed ++ [W.cur_block]).flatten = flushed.flatten ++ W.cur_block) := by
  have hfile : (flushState C W).file = W.file ++ encBlock C W.cur_block := by
    simp only [flushState]
    exact writeAt_eq_append _ _ _ inv.hpos
  have hlenf : (flushState C W).file.length
      = W.file.length + (encBlock C W.cur_block).length := by
    rw [hfile, List.length_append]
  refine ⟨⟨?_, ?_, inv.hbl, inv.hbl1, inv.hcomp, inv.hser, inv.hcn, inv.hsn, inv.hlen,
    ?_, ?_, ?_, ?_, ?_, ?_, ?_⟩, hfile, by simp⟩
  · show W.pos + (encBlock C W.cur_block).length = _
    rw [hlenf, inv.hpos]
  · rw [hlenf]
    have := inv.hmin
    omega
  · show ([] : List Bytes).length ≤ bl
    simp
  · show written.map C.ser = (flushed ++ [W.cur_block]).flatten ++ []
    rw [inv.hsplit]
    simp
  · intro c hc
    rcases List.mem_append.mp hc with h | h
    · exact inv.hfull c h
    · simp at h
      subst h
      exact hfl
  · show W.index ++ _ = _
    rw [inv.hidx, idxOf, idxOf, List.zipWith_append _ _ _ _ _ (by rw [inv.hslen])]
    rfl
  · simp only [List.length_append, List.length_cons, List.length_nil]
    rw [inv.hslen]
  · intro s hs
    rcases List.mem_append.mp hs with h | h
    · exact inv.hlow s h
    · simp at h
      subst h
      rw [inv.hpos]
      exact inv.hmin
  · intro i hi
    simp only [List.length_append, List.length_cons, List.length_nil] at hi
    by_cases hilt : i < flushed.length
    · have hs1 : (starts ++ [W.pos]).getD i 0 = starts.getD i 0 :=
        getD_append_lt _ _ _ _ (by rw [inv.hslen]; omega)
      have hs2 : (flushed ++ [W.cur_block]).getD i [] = flushed.getD i [] :=
        getD_append_lt _ _ _ _ hilt
      rw [hs1, hs2, hfile, readAt_append_left]
      · exact inv.hblocks i hilt
      · have hb := inv.hblocks i hilt
        have hlb : (readAt W.file (starts.getD i 0)
            (8 + (blockComp C (flushed.getD i [])).length)).length =
            8 + (blockComp C (flushed.getD i [])).length := by
          rw [hb, length_encBlock]
        exact readAt_length_le _ _ _ (by omega) hlb
    · have hieq : i = flushed.length := by omega
      subst hieq
      have hs1 : (starts ++ [W.pos]).getD flushed.length 0 = W.pos := by
        rw [← inv.hslen]
        exact getD_append_last _ _ _
      have hs2 : (flushed ++ [W.cur_block]).getD flushed.length [] = W.cur_block :=
        getD_append_last _ _ _
      rw [hs1, hs2, hfile, inv.hpos, readAt_append_right]
      rw [List.take_of_length_le (by rw [length_encBlock])]

theorem pushState_inv {C : Codec ρ} {bl : Nat} {cname sname : String}
    {flushed : List (List Bytes)} {starts : List Nat} {written : List ρ} {W : WState ρ}
    (inv : WInv C bl cname sname flushed starts written W)
    (hlt : W.cur_block.length < bl) (x : ρ) :
    WInv C bl cname sname flushed starts (written ++ [x])
      { W with cur_block := W.cur_block ++ [C.ser x], length := W.length + 1 } := by
  refine ⟨inv.hpos, inv.hmin, inv.hbl, inv.hbl1, inv.hcomp, inv.hser, inv.hcn, inv.hsn,
    ?_, ?_, ?_, inv.hfull, inv.hidx, inv.hslen, inv.hlow, inv.hblocks⟩
  · show W.length + 1 = _
    rw [inv.hlen, List.length_append, List.length_cons, List.length_nil]
  · show (W.cur_block ++ [C.ser x]).length ≤ bl
    simp only [List.length_append, List.length_cons, List.length_nil]
    omega
  · show (written ++ [x]).map C.ser = flushed.flatten ++ (W.cur_block ++ [C.ser x])
    rw [List.map_append, inv.hsplit]
    simp

theorem extendStep_inv {C : Codec ρ} {bl : Nat} {cname sname : String}
    {flushed : List (List Bytes)} {starts : List Nat} {written : List ρ} {W : WState ρ}
    (inv : WInv C bl cname sname flushed starts written W)
    (hlt : W.cur_block.length < bl) (x : ρ) :
    ∃ W' flushed' starts',
      extendStep C W x = .ok W' ∧
      WInv C bl cname sname flushed' starts' (written ++ [x]) W' ∧
      W'.cur_block.length < bl ∧
      ∃ t, W'.file = W.file ++ t := by
  have inv1 := pushState_inv inv hlt x
  set W1 : WState ρ :=
    { W with cur_block := W.cur_block ++ [C.ser x], length := W.length + 1 } with hW1
  by_cases hfull : W1.cur_block.length = W1.block_length
  · have hbl : W1.block_length = bl := inv.hbl
    have hne1 : W1.cur_block ≠ [] := by simp [hW1]
    have hflush := flushW_eq_of_ne C false W1 hne1 (Or.inl hfull)
    obtain ⟨inv2, hfile2, _⟩ := flushState_inv inv1 (by rw [← hbl]; exact hfull) hne1
    refine ⟨flushState C W1, flushed ++ [W1.cur_block], starts ++ [W1.pos],
      ?_, inv2, ?_, ?_⟩
    · rw [extendStep, if_pos hfull, hflush]
    · show ([] : List Bytes).length < bl
      simp only [List.length_nil]
      exact inv.hbl1
    · exact ⟨encBlock C W1.cur_block, hfile2⟩
  · refine ⟨W1, flushed, starts, ?_, inv1, ?_, [], by simp⟩
    · rw [extendStep, if_neg hfull]
      rfl
    · have h1 : W1.cur_block.length = W.cur_block.length + 1 := by
        simp [hW1]
      have h2 : W1.block_length = bl := inv.hbl
      omega

theorem extendLoop_inv {C : Codec ρ} {bl : Nat} {cname sname : String} :
    ∀ (xs : List ρ) (W : WState ρ) (flushed : List (List Bytes)) (starts : List Nat)
      (written : List ρ),
    WInv C bl cname sname flushed starts written W → W.cur_block.length < bl →
    ∃ W' flushed' starts',
      xs.foldlM (extendStep C) W = .ok W' ∧
      WInv C bl cname sname flushed' starts' (written ++ xs) W' ∧
      W'.cur_block.length < bl ∧
      ∃ t, W'.file = W.file ++ t := by
  intro xs
  induction xs with
  | nil =>
    intro W flushed starts written inv hlt
    exact ⟨W, flushed, starts, rfl, by simpa using inv, hlt, [], by simp⟩
  | cons x rest ih =>
    intro W flushed starts written inv hlt
    obtain ⟨W1, fl1, st1, hstep, inv1, hlt1, t1, hext1⟩ := extendStep_inv inv hlt x
    obtain ⟨W2, fl2, st2, hloop, inv2, hlt2, t2, hext2⟩ := ih W1 fl1 st1 _ inv1 hlt1
    refine ⟨W2, fl2, st2, ?_, ?_, hlt2, t1 ++ t2, ?_⟩
    · rw [List.foldlM_cons, hstep, ok_bind, hloop]
    · rw [show written ++ x :: rest = (written ++ [x]) ++ rest by simp]
      exact inv2
    · rw [hext2, hext1, List.append_assoc]

theorem extendW_inv {C : Codec ρ} {bl : Nat} {cname sname : String}
    {flushed : List (List Bytes)} {starts : List Nat} {written : List ρ} {W : WState ρ}
    (inv : WInv C bl cname sname flushed starts written W) (xs : List ρ) :
    ∃ W' flushed' starts',
      extendW C xs W = .ok W' ∧
      WInv C bl cname sname flushed' starts' (written ++ xs) W' ∧
      W'.cur_block.length < bl ∧
      ∃ t, W'.file = W.file ++ t := by
  by_cases hfull : W.cur_block.length = W.block_length
  · have hbl : W.block_length = bl := inv.hbl
    have hne : W.cur_block ≠ [] := by
      intro hnil
      rw [hnil] at hfull
      simp only [List.length_nil] at hfull
      have := inv.hbl1
      omega
    have hflush := flushW_eq_of_ne C false W hne (Or.inl hfull)
    obtain ⟨inv2, hfile2, _⟩ := flushState_inv inv (by rw [← hbl]; exact hfull) hne
    obtain ⟨W2, fl2, st2, hloop, inv3, hlt3, t2, hext2⟩ :=
      extendLoop_inv xs (flushState C W) _ _ _ inv2 (by
        show ([] : List Bytes).length < bl
        simp only [List.length_nil]
        exact inv.hbl1)
    refine ⟨W2, fl2, st2, ?_, inv3, hlt3, encBlock C W.cur_block ++ t2, ?_⟩
    · rw [extendW, if_pos hfull, hflush, ok_bind]
      exact hloop
    · rw [hext2, hfile2, List.append_assoc]
  · have hlt : W.cur_block.length < bl := by
      have := inv.hcur
      have hbl : W.block_length = bl := inv.hbl
      omega
    obtain ⟨W2, fl2, st2, hloop, inv3, hlt3, t2, hext2⟩ :=
      extendLoop_inv xs W flushed starts written inv hlt
    refine ⟨W2, fl2, st2, ?_, inv3, hlt3, t2, hext2⟩
    rw [extendW, if_neg hfull, pure_bind]
    exact hloop

/-- The facts `close` needs about the state after the final (forced) flush:
like `flushState_inv` but without requiring the last block to be full. -/
theorem flushState_close {C : Codec ρ} {bl : Nat} {cname sname : String}
    {flushed : List (List Bytes)} {starts : List Nat} {written : List ρ} {W : WState ρ}
    (inv : WInv C bl cname sname flushed starts written W) :
    (flushState C W).file = W.file ++ encBlock C W.cur_block ∧
    (flushState C W).pos = (flushState C W).file.length ∧
    HEADER_SPACE ≤ (flushState C W).file.length ∧
    (flushState C W).index = idxOf C (starts ++ [W.pos]) (flushed ++ [W.cur_block]) ∧
    (starts ++ [W.pos]).length = (flushed ++ [W.cur_block]).length ∧
    (∀ s ∈ starts ++ [W.pos], HEADER_SPACE ≤ s) ∧
    (∀ i, i < (flushed ++ [W.cur_block]).length →
      readAt (flushState C W).file ((starts ++ [W.pos]).getD i 0)
        (8 + (blockComp C ((flushed ++ [W.cur_block]).getD i [])).length) =
        encBlock C ((flushed ++ [W.cur_block]).getD i [])) := by
  have hfile : (flushState C W).file = W.file ++ encBlock C W.cur_block := by
    simp only [flushState]
    exact writeAt_eq_append _ _ _ inv.hpos
  have hlenf : (flushState C W).file.length
      = W.file.length + (encBlock C W.cur_block).length := by
    rw [hfile, List.length_append]
  refine ⟨hfile, ?_, ?_, ?_, ?_, ?_, ?_⟩
  · show W.pos + (encBlock C W.cur_block).length = _
    rw [hlenf, inv.hpos]
  · rw [hlenf]
    have := inv.hmin
    omega
  · show W.index ++ _ = _
    rw [inv.hidx, idxOf, idxOf, List.zipWith_append _ _ _ _ _ (by rw [inv.hslen])]
    rfl
  · simp only [List.length_append, List.length_cons, List.length_nil]
    rw [inv.hslen]
  · intro s hs
    rcases List.mem_append.mp hs with h | h
    · exact inv.hlow s h
    · simp at h
      subst h
      rw [inv.hpos]
      exact inv.hmin
  · intro i hi
    simp only [List.length_append, List.length_cons, List.length_nil] at hi
    by_cases hilt : i < flushed.length
    · have hs1 : (starts ++ [W.pos]).getD i 0 = starts.getD i 0 :=
        getD_append_lt _ _ _ _ (by rw [inv.hslen]; omega)
      have hs2 : (flushed ++ [W.cur_block]).getD i [] = flushed.getD i [] :=
        getD_append_lt _ _ _ _ hilt
      rw [hs1, hs2, hfile, readAt_append_left]
      · exact inv.hblocks i hilt
      · have hb := inv.hblocks i hilt
        have hlb : (readAt W.file (starts.getD i 0)
            (8 + (blockComp C (flushed.getD i [])).length)).length =
            8 + (blockComp C (flushed.getD i [])).length := by
          rw [hb, length_encBlock]
        exact readAt_length_le _ _ _ (by omega) hlb
    · have hieq : i = flushed.length := by omega
      subst hieq
      have hs1 : (starts ++ [W.pos]).getD flushed.length 0 = W.pos := by
        rw [← inv.hslen]
        exact getD_append_last _ _ _
      have hs2 : (flushed ++ [W.cur_block]).getD flushed.length [] = W.cur_block :=
        getD_append_last _ _ _
      rw [hs1, hs2, hfile, inv.hpos, readAt_append_right]
      rw [List.take_of_length_le (by rw [length_encBlock])]

theorem readAt_start (b c : Bytes) (n : Nat) (hn : n = b.length) :
    readAt (b ++ c) 0 n = b := by
  subst hn
  simp only [readAt, List.drop_zero]
  exact List.take_left b c

theorem readAt_seg (a b c : Bytes) (p n : Nat) (hp : p = a.length) (hn : n = b.length) :
    readAt (a ++ (b ++ c)) p n = b := by
  subst hp hn
  rw [readAt_append_right, List.take_left]

theorem closeW_good {C : Codec ρ} {bl : Nat} {cname sname : String}
    {flushed : List (List Bytes)} {starts : List Nat} {written : List ρ} {W : WState ρ}
    (inv : WInv C bl cname sname flushed starts written W) (W'' : WState ρ)
    (hc : closeW C W = .ok W'') :
    ∃ L, GoodAt C bl cname sname L W''.file written := by
  have hmain : ∃ (Wf : WState ρ) (cs : List (List Bytes)) (sts : List Nat),
      flushW C true W = .ok Wf ∧
      chunksD C bl written = cs ∧
      Wf.pos = Wf.file.length ∧
      HEADER_SPACE ≤ Wf.file.length ∧
      Wf.index = idxOf C sts cs ∧
      sts.length = cs.length ∧
      (∀ s ∈ sts, HEADER_SPACE ≤ s) ∧
      (∀ i, i < cs.length →
        readAt Wf.file (sts.getD i 0) (8 + (blockComp C (cs.getD i [])).length) =
          encBlock C (cs.getD i [])) ∧
      Wf.block_length = bl ∧ Wf.compression = cname ∧ Wf.serializer = sname ∧
      Wf.length = written.length := by
    by_cases he : W.cur_block = []
    · refine ⟨W, flushed, starts, flushW_empty C true W he (Or.inr rfl), ?_, inv.hpos,
        inv.hmin, inv.hidx, inv.hslen, inv.hlow, inv.hblocks, inv.hbl, inv.hcomp,
        inv.hser, inv.hlen⟩
      rw [chunksD, inv.hsplit, he, List.append_nil]
      rw [show flushed.flatten = flushed.flatten ++ [] by simp]
      rw [chunksOf_append_full bl inv.hbl1 flushed [] inv.hfull (by simp)]
      simp
    · obtain ⟨hfile, hpos, hmin, hidx, hslen, hlow, hblocks⟩ := flushState_close inv
      refine ⟨flushState C W, flushed ++ [W.cur_block], starts ++ [W.pos],
        flushW_eq_of_ne C true W he (Or.inr rfl), ?_, hpos, hmin, hidx, hslen, hlow,
        hblocks, inv.hbl, inv.hcomp, inv.hser, inv.hlen⟩
      rw [chunksD, inv.hsplit]
      rw [chunksOf_append_full bl inv.hbl1 flushed W.cur_block inv.hfull inv.hcur]
      have hie : W.cur_block.isEmpty = false := by
        cases hcb : W.cur_block
        · exact absurd hcb he
        · rfl
      rw [hie]
      rfl
  obtain ⟨Wf, cs, sts, hflushW, hchunks, hposF, hminF, hidxF, hslenF, hlowF, hblocksF,
    hblF, hcompF, hserF, hlenF⟩ := hmain
  rw [closeW, hflushW, ok_bind] at hc
  rw [writeIndexW] at hc
  dsimp only at hc
  rw [writeHeaderW] at hc
  dsimp only at hc
  set icomp : Bytes := C.compress (C.packIndex Wf.index) with hicomp
  set israw : Nat := (C.packIndex Wf.index).length with hisraw
  set hdr : List (String × HVal) :=
    mkHeader Wf.pos icomp.length israw Wf.serializer Wf.compression Wf.block_length
      Wf.length with hhdr
  set hraw : Bytes := C.packHeader hdr with hhraw
  set pre : Bytes := MAGIC ++ le16 VERSION ++ le32 hraw.length with hpre
  by_cases hfit : pre.length + hraw.length + (checksumB hraw).length < HEADER_SPACE
  case neg =>
    rw [if_neg hfit] at hc
    exact Except.noConfusion hc
  rw [if_pos hfit] at hc
  injection hc with hc
  have hpre18 : pre.length = 18 := by
    rw [hpre]
    simp [MAGIC, le16, le32]
  have hfit' : 18 + hraw.length + 8 < HEADER_SPACE := by
    rw [hpre18, length_checksumB] at hfit
    exact hfit
  -- the file after the index write
  have hF1 : (writeAt Wf.file Wf.pos (checksumB icomp ++ icomp)) =
      Wf.file ++ (checksumB icomp ++ icomp) := writeAt_eq_append _ _ _ hposF
  set F1 : Bytes := Wf.file ++ (checksumB icomp ++ icomp) with hF1def
  set data : Bytes := pre ++ checksumB hraw ++ hraw with hdata
  have hdatalen : data.length = 26 + hraw.length := by
    rw [hdata]
    simp only [List.length_append, length_checksumB, hpre18]
  have hF1len : F1.length = Wf.file.length + (8 + icomp.length) := by
    rw [hF1def]
    simp only [List.length_append, length_checksumB]
  have hfileW'' : W''.file = writeAt F1 0 data := by
    rw [← hc]
    dsimp only
    rw [hF1]
  have hdata_le : data.length ≤ Wf.file.length := by
    have := hminF
    simp only [HEADER_SPACE] at this hfit'
    omega
  have hF2 : W''.file = data ++ F1.drop data.length := by
    rw [hfileW'', writeAt_zero]
  -- the layout
  refine ⟨{ hs := hraw.length, istart := Wf.pos, isize := icomp.length, starts := sts },
    ?_, inv.hcn, inv.hsn, ?_, ?_, ?_, ?_, ?_, ?_, ?_, ?_, ?_, ?_, ?_, ?_⟩
  · exact inv.hbl1
  · -- hstarts
    rw [hchunks]
    exact hslenF
  · -- hlow
    exact hlowF
  · -- histart
    rw [hposF]
    exact hminF
  · -- hisize
    rw [icompOf, idxL, hchunks, ← hidxF]
  · -- hhs
    rw [hrawOf, hdrOf, idxL, hchunks, ← hidxF]
    rw [hhraw, hhdr, hisraw]
    rw [hblF, hcompF, hserF, hlenF]
  · -- hfit
    exact hfit'
  · -- hpre
    rw [hF2]
    have hassoc : data ++ F1.drop data.length =
        (MAGIC ++ (le16 VERSION ++ le32 hraw.length)) ++
          (checksumB hraw ++ (hraw ++ F1.drop data.length)) := by
      rw [hdata, hpre]
      simp [List.append_assoc]
    rw [hassoc]
    exact readAt_start _ _ 18 (by simp [MAGIC, le16, le32])
  · -- hchk
    rw [hF2]
    have hassoc : data ++ F1.drop data.length =
        pre ++ (checksumB hraw ++ (hraw ++ F1.drop data.length)) := by
      rw [hdata]
      simp [List.append_assoc]
    rw [hassoc]
    rw [readAt_seg pre (checksumB hraw) (hraw ++ F1.drop data.length) 18 8
      hpre18.symm (length_checksumB hraw).symm]
    congr 1
    rw [hrawOf, hdrOf, idxL, hchunks, ← hidxF]
    rw [hhraw, hhdr, hisraw]
    rw [hblF, hcompF, hserF, hlenF]
  · -- hraw
    rw [hF2]
    have hassoc : data ++ F1.drop data.length =
        (pre ++ checksumB hraw) ++ (hraw ++ F1.drop data.length) := by
      rw [hdata]
      simp [List.append_assoc]
    rw [hassoc]
    rw [readAt_seg (pre ++ checksumB hraw) hraw (F1.drop data.length) 26 hraw.length
      (by simp [hpre18, length_checksumB]) rfl]
    rw [hrawOf, hdrOf, idxL, hchunks, ← hidxF]
    rw [hhraw, hhdr, hisraw]
    rw [hblF, hcompF, hserF, hlenF]
  · -- hidx
    rw [hF2]
    have h1 : readAt (data ++ F1.drop data.length) Wf.pos (8 + icomp.length) =
        readAt F1 Wf.pos (8 + icomp.length) := by
      rw [← writeAt_zero F1 data]
      exact readAt_writeAt_zero F1 data Wf.pos _ (by rw [hposF]; exact hdata_le)
    rw [h1, hF1def, hposF, readAt_append_right]
    rw [List.take_of_length_le (by simp [length_checksumB])]
    rw [icompOf, idxL, hchunks, ← hidxF]
  · -- hblocks
    intro i hi
    dsimp only
    rw [hchunks] at hi ⊢
    have hsi : HEADER_SPACE ≤ sts.getD i 0 :=
      hlowF _ (getD_mem_of_lt sts 0 i (by omega))
    have hb := hblocksF i hi
    have hlb : (readAt Wf.file (sts.getD i 0)
        (8 + (blockComp C (cs.getD i [])).length)).length =
        8 + (blockComp C (cs.getD i [])).length := by
      rw [hb, length_encBlock]
    have hbound := readAt_length_le _ _ _ (by omega) hlb
    rw [hF2, ← writeAt_zero F1 data]
    rw [readAt_writeAt_zero F1 data _ _ (by simp only [HEADER_SPACE] at hsi hfit'; omega)]
    rw [hF1def, readAt_append_left _ _ _ _ hbound]
    exact hb
  · -- hEOF
    have hlen2 : W''.file.length = F1.length := by
      rw [hfileW'', length_writeAt]
      omega
    dsimp only
    rw [hlen2, hF1len, hposF]
    omega

/-! ### Helper facts about the last chunk, for the appender -/

theorem chunksOf_eq_nil_iff (bl : Nat) (l : List α) : chunksOf bl l = [] ↔ l = [] := by
  cases l
  · simp
  · rw [chunksOf]
    simp

theorem getD_dropLast {α : Type} (l : List α) (dflt : α) (i : Nat) (hi : i < l.length - 1) :
    l.dropLast.getD i dflt = l.getD i dflt := by
  rw [List.getD_eq_getElem?_getD, List.getD_eq_getElem?_getD, List.getElem?_dropLast,
    if_pos hi]

theorem dropLast_concat_getD {α : Type} (l : List α) (dflt : α) (hne : l ≠ []) :
    l.dropLast ++ [l.getD (l.length - 1) dflt] = l := by
  have hlen : l.length - 1 < l.length := by
    cases l
    · exact absurd rfl hne
    · simp
  rw [List.getD_eq_getElem _ _ hlen]
  rw [← List.getLast_eq_getElem l hne]
  exact List.dropLast_append_getLast hne

theorem dropLast_zipWith {α β γ : Type} (f : α → β → γ) (a : List α) (b : List β)
    (hlen : a.length = b.length) :
    (List.zipWith f a b).dropLast = List.zipWith f a.dropLast b.dropLast := by
  rw [List.dropLast_eq_take, List.dropLast_eq_take, List.dropLast_eq_take,
    List.take_zipWith]
  congr 2
  · rw [List.length_zipWith]
    omega
  · rw [List.length_zipWith]
    omega

theorem chunksOf_getD_length (bl : Nat) (hbl : 1 ≤ bl) (l : List α) (i : Nat)
    (hi : i < (chunksOf bl l).length) :
    ((chunksOf bl l).getD i []).length = min bl (l.length - i * bl) := by
  rw [chunksOf_getD bl hbl l i hi]
  simp

theorem chunksOf_full_getD (bl : Nat) (hbl : 1 ≤ bl) (l : List α) (i : Nat)
    (hi : i + 1 < (chunksOf bl l).length) :
    ((chunksOf bl l).getD i []).length = bl := by
  have hne : l ≠ [] := by
    intro h
    subst h
    simp at hi
  have hcount := chunksOf_length bl hbl l hne
  rw [chunksOf_getD_length bl hbl l i (by omega)]
  have hiq : i < (l.length - 1) / bl := by omega
  have h1 : (i + 1) * bl ≤ ((l.length - 1) / bl) * bl :=
    Nat.mul_le_mul_right bl (by omega)
  have h2 : ((l.length - 1) / bl) * bl ≤ l.length - 1 := Nat.div_mul_le_self _ _
  have h3 : (i + 1) * bl = i * bl + bl := by ring
  omega

theorem chunksOf_last_getD (bl : Nat) (hbl : 1 ≤ bl) (l : List α) (hne : l ≠ [])
    (hmod : l.length % bl ≠ 0) :
    ((chunksOf bl l).getD ((chunksOf bl l).length - 1) []).length = l.length % bl := by
  have hlen1 : 1 ≤ l.length := by
    cases l
    · exact absurd rfl hne
    · simp
  have hcount := chunksOf_length bl hbl l hne
  obtain ⟨q, hq⟩ : ∃ q, (l.length - 1) / bl = q := ⟨_, rfl⟩
  obtain ⟨e, he⟩ : ∃ e, (l.length - 1) % bl = e := ⟨_, rfl⟩
  rw [hq] at hcount
  have hde := Nat.div_add_mod (l.length - 1) bl
  rw [hq, he] at hde
  have helt : e < bl := by
    rw [← he]
    exact Nat.mod_lt _ (by omega)
  have hmod2 : l.length % bl = (e + 1) % bl := by
    have h1 : l.length = e + 1 + bl * q := by omega
    conv_lhs => rw [h1]
    rw [Nat.mul_comm, Nat.add_mul_mod_self_right]
  have hlast : (chunksOf bl l).length - 1 = q := by omega
  have hqlt : q < (chunksOf bl l).length := by omega
  rw [hlast, chunksOf_getD_length bl hbl l _ hqlt, hmod2]
  have hcomm : q * bl = bl * q := Nat.mul_comm _ _
  by_cases hbig : e + 1 = bl
  · rw [hbig, Nat.mod_self] at hmod2
    exact absurd hmod2 hmod
  · rw [Nat.mod_eq_of_lt (by omega : e + 1 < bl)]
    omega

theorem chunksOf_full_getD_dvd (bl : Nat) (hbl : 1 ≤ bl) (l : List α)
    (hmod : l.length % bl = 0) (i : Nat) (hi : i < (chunksOf bl l).length) :
    ((chunksOf bl l).getD i []).length = bl := by
  have hne : l ≠ [] := by
    intro h
    subst h
    simp at hi
  have hlen1 : 1 ≤ l.length := by
    cases l
    · exact absurd rfl hne
    · simp
  have hcount := chunksOf_length bl hbl l hne
  obtain ⟨k, hk⟩ := Nat.dvd_of_mod_eq_zero hmod
  have hk1 : 1 ≤ k := by
    by_contra hcon
    have : k = 0 := by omega
    rw [this, Nat.mul_zero] at hk
    omega
  have hq : (l.length - 1) / bl = k - 1 := by
    obtain ⟨k', rfl⟩ : ∃ k', k = k' + 1 := ⟨k - 1, by omega⟩
    have h1 : l.length - 1 = bl * k' + (bl - 1) := by
      rw [hk, Nat.mul_add, Nat.mul_one]
      omega
    rw [h1, Nat.mul_add_div (by omega), Nat.div_eq_of_lt (by omega)]
    omega
  rw [chunksOf_getD_length bl hbl l i hi]
  have hik : i < k := by omega
  have h1 : (i + 1) * bl ≤ k * bl := Nat.mul_le_mul_right bl (by omega)
  have h3 : (i + 1) * bl = i * bl + bl := by ring
  have h4 : k * bl = bl * k := Nat.mul_comm _ _
  omega

/-! ### `DatasetAppender.__init__` on a closed dataset -/

theorem appenderInitB_good {ρ : Type} {C : Codec ρ} {bl : Nat} {cname sname : String}
    {L : Layout} {f : Bytes} {d : List ρ}
    (lawC : LawfulCodec C) (good : GoodAt C bl cname sname L f d) :
    ∃ (A : WState ρ) (flushedA : List (List Bytes)) (startsA : List Nat),
      appenderInitB C f = .ok A ∧
      WInv C bl cname sname flushedA startsA d A ∧
      A.pos = L.istart + CHECKSUM_LEN + L.isize ∧
      A.file = f ∧
      A.cur_block.length = d.length % bl := by
  have hext := extOf_self f
  have hflen := good.flen
  have hbl1 := good.hbl
  have hEOF := good.hEOF
  have hpos_eq : L.istart + CHECKSUM_LEN + L.isize = f.length := by
    simp only [CHECKSUM_LEN]
    omega
  have hstart : appenderInitB C f = (do
      let index ← readIndexB C f L.istart L.isize
      let pos := L.istart + CHECKSUM_LEN + L.isize
      if 0 < index.length then
        if d.length % bl ≠ 0 then do
          let raw ← readBlockB C f index (index.length - 1)
          .ok { file := f, pos := pos, block_length := bl, length := d.length,
                compression := cname, serializer := sname,
                cur_block := C.unpackList raw, cur_block_idx := index.length - 1,
                index := index.dropLast }
        else
          .ok { file := f, pos := pos, block_length := bl, length := d.length,
                compression := cname, serializer := sname,
                cur_block := [], cur_block_idx := index.length, index := index }
      else
        .ok { file := f, pos := pos, block_length := bl, length := d.length,
              compression := cname, serializer := sname,
              cur_block := [], cur_block_idx := 0, index := [] } : Except Err (WState ρ)) := by
    rw [appenderInitB, readHeaderB_good lawC good f (good.hdrReads f hext), ok_bind, hdrOf]
    simp only [hgetNat_index_start, hgetNat_index_size, hgetNat_block_length,
      hgetNat_length, hgetStr_compression, hgetStr_serializer, ok_bind]
  rw [hstart, readIndexB_good lawC good f hext, ok_bind]
  have hidxlen : (idxL C bl L d).length = (chunksD C bl d).length := idxL_length good
  by_cases hd : d = []
  · subst hd
    have hnil : idxL C bl L [] = [] := by
      rw [idxL, idxOf]
      have : chunksD C bl ([] : List ρ) = [] := by
        rw [chunksD]
        simp
      rw [this]
      simp
    rw [hnil]
    simp only [List.length_nil, Nat.lt_irrefl, if_false]
    refine ⟨_, [], [], rfl, ?_, rfl, rfl, by simp⟩
    refine ⟨hpos_eq, by dsimp only; omega, rfl, good.hbl, rfl, rfl, good.hcname,
      good.hsname, rfl, by simp, by simp, ?_, rfl, rfl, ?_, ?_⟩
    · intro c hc
      simp at hc
    · intro s hs
      simp at hs
    · intro i hi
      simp at hi
  · have hchne : chunksD C bl d ≠ [] := by
      rw [chunksD]
      rw [Ne, chunksOf_eq_nil_iff]
      simp [hd]
    have hcount1 : 1 ≤ (chunksD C bl d).length := by
      rcases hcc : chunksD C bl d with _ | ⟨c, cs⟩
      · exact absurd hcc hchne
      · simp
    rw [if_pos (by omega)]
    have hmaplen : (d.map C.ser).length = d.length := List.length_map d C.ser
    have hdne : d.map C.ser ≠ [] := by
      simp [hd]
    by_cases hr : d.length % bl ≠ 0
    · rw [if_pos hr]
      have hlast_lt : (idxL C bl L d).length - 1 < (chunksD C bl d).length := by omega
      rw [readBlockB_good lawC good f hext _ (by omega), ok_bind]
      rw [lawC.unpackList_packList]
      have hlastidx : (idxL C bl L d).length - 1 = (chunksD C bl d).length - 1 := by omega
      rw [hlastidx]
      have hcurlen : ((chunksD C bl d).getD ((chunksD C bl d).length - 1) []).length
          = d.length % bl := by
        rw [chunksD]
        have hlg := chunksOf_last_getD bl hbl1 (d.map C.ser) hdne
          (by rw [hmaplen]; exact hr)
        rw [hmaplen] at hlg
        exact hlg
      have hmodlt : d.length % bl < bl := Nat.mod_lt _ (by omega)
      refine ⟨_, (chunksD C bl d).dropLast, L.starts.dropLast, rfl, ?_, rfl, rfl, ?_⟩
      · refine ⟨hpos_eq, by dsimp only; omega, rfl, good.hbl, rfl, rfl, good.hcname,
          good.hsname, rfl, ?_, ?_, ?_, ?_, ?_, ?_, ?_⟩
        · -- hcur
          show ((chunksD C bl d).getD ((chunksD C bl d).length - 1) []).length ≤ bl
          rw [hcurlen]
          omega
        · -- hsplit
          show d.map C.ser = (chunksD C bl d).dropLast.flatten ++
            (chunksD C bl d).getD ((chunksD C bl d).length - 1) []
          have hconcat := dropLast_concat_getD (chunksD C bl d) [] hchne
          calc d.map C.ser = (chunksD C bl d).flatten := by rw [chunksD, chunksOf_flatten]
            _ = ((chunksD C bl d).dropLast ++
                  [(chunksD C bl d).getD ((chunksD C bl d).length - 1) []]).flatten := by
                rw [hconcat]
            _ = (chunksD C bl d).dropLast.flatten ++
                  (chunksD C bl d).getD ((chunksD C bl d).length - 1) [] := by simp
        · -- hfull
          intro c hc
          obtain ⟨i, hi, hgi⟩ := List.mem_iff_getElem.mp hc
          have hi' : i < (chunksD C bl d).length - 1 := by
            have := List.length_dropLast (chunksD C bl d)
            omega
          have hceq : c = (chunksD C bl d).getD i [] := by
            rw [← hgi, ← List.getD_eq_getElem _ _ hi]
            exact getD_dropLast _ [] i hi'
          rw [hceq, chunksD]
          exact chunksOf_full_getD bl hbl1 (d.map C.ser) i (by rw [← chunksD]; omega)
        · -- hidx
          show (idxL C bl L d).dropLast = _
          rw [idxL, idxOf, dropLast_zipWith _ _ _ good.hstarts]
          rfl
        · -- hslen
          rw [List.length_dropLast, List.length_dropLast, good.hstarts]
        · -- hlow
          exact fun s hs => good.hlow s (List.dropLast_subset _ hs)
        · -- hblocks
          intro i hi
          rw [List.length_dropLast] at hi
          rw [getD_dropLast _ _ i (by rw [good.hstarts]; omega),
            getD_dropLast _ _ i (by omega)]
          exact good.hblocks i (by omega)
      · -- cur_block length
        show ((chunksD C bl d).getD ((chunksD C bl d).length - 1) []).length
          = d.length % bl
        exact hcurlen
    · rw [if_neg hr]
      push_neg at hr
      refine ⟨_, chunksD C bl d, L.starts, rfl, ?_, rfl, rfl, ?_⟩
      · refine ⟨hpos_eq, by dsimp only; omega, rfl, good.hbl, rfl, rfl, good.hcname,
          good.hsname, rfl, ?_, ?_, ?_, rfl, good.hstarts, good.hlow, good.hblocks⟩
        · -- hcur
          show ([] : List Bytes).length ≤ bl
          simp
        · -- hsplit
          show d.map C.ser = (chunksD C bl d).flatten ++ []
          rw [List.append_nil, chunksD, chunksOf_flatten]
        · -- hfull
          intro c hc
          obtain ⟨i, hi, hgi⟩ := List.mem_iff_getElem.mp hc
          have hceq : c = (chunksD C bl d).getD i [] := by
            rw [← hgi, List.getD_eq_getElem _ _ hi]
          rw [hceq, chunksD]
          exact chunksOf_full_getD_dvd bl hbl1 (d.map C.ser) (by rw [hmaplen]; exact hr)
            i (by rw [← chunksD]; omega)
      · -- cur_block length
        show ([] : List Bytes).length = d.length % bl
        simp
        omega

/-! ### Whole sessions -/

/-- `f` is a closed dataset file for the records `d` (some layout). -/
def GoodFile (C : Codec ρ) (bl : Nat) (cname sname : String) (f : Bytes) (d : List ρ) :
    Prop :=
  ∃ L, GoodAt C bl cname sname L f d

/-- One writer session: `open(fname, "w", ...)`, `extend(p)`, `close()`;
returns the resulting file bytes. -/
def writeSession (C : Codec ρ) (bl : Nat) (cname sname : String) (p : List ρ) :
    Except Err Bytes := do
  let W ← initW ρ bl cname sname
  let W ← extendW C p W
  let W ← closeW C W
  pure W.file

/-- One appender session: `open(fname, "a")`, `extend(p)`, `close()`. -/
def appendSession (C : Codec ρ) (f : Bytes) (p : List ρ) : Except Err Bytes := do
  let A ← appenderInitB C f
  let A ← extendW C p A
  let A ← closeW C A
  pure A.file

/-- A writer session followed by one appender session per part. -/
def multiSession (C : Codec ρ) (bl : Nat) (cname sname : String)
    (first : List ρ) (rest : List (List ρ)) : Except Err Bytes := do
  let f ← writeSession C bl cname sname first
  rest.foldlM (appendSession C) f

theorem writeSession_good {ρ : Type} {C : Codec ρ} {bl : Nat} {cname sname : String}
    (hbl : 1 ≤ bl) (hcn : cname ∈ compressionNames) (hsn : sname ∈ serializerNames)
    (p : List ρ) (f : Bytes) (hw : writeSession C bl cname sname p = .ok f) :
    GoodFile C bl cname sname f p := by
  rw [writeSession, initW_ok ρ bl cname sname hbl hcn hsn, ok_bind] at hw
  obtain ⟨W', fl, st, hext, inv, _, _⟩ :=
    extendW_inv (initW_inv C bl cname sname hbl hcn hsn) p
  rw [hext, ok_bind] at hw
  cases hc : closeW C W' with
  | error e =>
    rw [hc] at hw
    exact Except.noConfusion hw
  | ok W'' =>
    rw [hc, ok_bind] at hw
    injection hw with hw
    obtain ⟨L, good⟩ := closeW_good inv W'' hc
    rw [← hw]
    exact ⟨L, by simpa using good⟩

theorem appendSession_good {ρ : Type} {C : Codec ρ} {bl : Nat} {cname sname : String}
    (lawC : LawfulCodec C) {f : Bytes} {d : List ρ}
    (hgf : GoodFile C bl cname sname f d)
    (p : List ρ) (f' : Bytes) (ha : appendSession C f p = .ok f') :
    GoodFile C bl cname sname f' (d ++ p) := by
  obtain ⟨L, good⟩ := hgf
  obtain ⟨A, flA, stA, hA, invA, _, _, _⟩ := appenderInitB_good lawC good
  rw [appendSession, hA, ok_bind] at ha
  obtain ⟨W', fl, st, hext, inv, _, _⟩ := extendW_inv invA p
  rw [hext, ok_bind] at ha
  cases hc : closeW C W' with
  | error e =>
    rw [hc] at ha
    exact Except.noConfusion ha
  | ok W'' =>
    rw [hc, ok_bind] at ha
    injection ha with ha
    obtain ⟨L', good'⟩ := closeW_good inv W'' hc
    rw [← ha]
    exact ⟨L', good'⟩

/-! ### `get_idx` against Python indexing -/

theorem getIdx_spec {ρ : Type} {C : Codec ρ} {bl : Nat} {cname sname : String}
    {L : Layout} {f : Bytes} {d : List ρ}
    (lawC : LawfulCodec C) (good : GoodAt C bl cname sname L f d)
    (g : Bytes) (hg : ExtOf f g) (n : Int) :
    (pyGet d n = none → getIdx C (stOf C bl L g d) n = .error .indexOut) ∧
    (∀ v, pyGet d n = some v → ∃ st', getIdx C (stOf C bl L g d) n = .ok (v, st')) := by
  have hbl1 := good.hbl
  rw [getIdx, pyGet]
  dsimp only [stOf]
  by_cases hcond : (if n < 0 then (d.length : Int) + n else n) < 0 ∨
      (d.length : Int) ≤ (if n < 0 then (d.length : Int) + n else n)
  · rw [if_pos hcond, if_pos hcond]
    constructor
    · intro _
      rfl
    · intro v hv
      exact Option.noConfusion hv
  · rw [if_neg hcond, if_neg hcond]
    push_neg at hcond
    obtain ⟨hge, hlt⟩ := hcond
    set nn : Int := if n < 0 then (d.length : Int) + n else n with hnn
    have hlenpos : 0 < d.length := by
      by_contra hcon
      have hz : d.length = 0 := by omega
      rw [hnn] at hge hlt
      rw [hz] at hge hlt
      by_cases hneg : n < 0 <;> simp [hneg] at hge hlt <;> omega
    set m : Nat := nn.toNat with hm
    have hmlt : m < d.length := by
      rw [hm]
      omega
    have hdm : d[m]? = some (d.get ⟨m, hmlt⟩) := List.getElem?_eq_getElem hmlt
    have hmap : d.map C.ser ≠ [] := by
      intro hcon
      have hl := congrArg List.length hcon
      rw [List.length_map] at hl
      simp only [List.length_nil] at hl
      omega
    have hcount : (chunksD C bl d).length = (d.length - 1) / bl + 1 := by
      rw [chunksD, chunksOf_length bl hbl1 _ hmap, List.length_map]
    have hi : m / bl < (chunksD C bl d).length := by
      rw [hcount]
      have := Nat.div_le_div_right (c := bl) (show m ≤ d.length - 1 by omega)
      omega
    rw [pure_bind]
    have hload : loadBlockB C { file := g, index := idxL C bl L d, block_length := bl, length := d.length, cache := none } (m / bl) = .ok ((chunksD C bl d).getD (m / bl) []) := loadBlockB_good lawC good g hg (m / bl) hi
    rw [hload, ok_bind]
    have hchunk : (chunksD C bl d).getD (m / bl) [] =
        ((d.map C.ser).drop (m / bl * bl)).take bl := by
      rw [chunksD, chunksOf_getD bl hbl1 _ _ (by rw [← chunksD]; exact hi)]
    have hj : m % bl < bl := Nat.mod_lt _ (by omega)
    have hidx_eq : m / bl * bl + m % bl = m := by
      have := Nat.div_add_mod m bl
      have hcomm : m / bl * bl = bl * (m / bl) := Nat.mul_comm _ _
      omega
    have hjval : ((chunksD C bl d).getD (m / bl) [])[m % bl]? =
        some (C.ser (d.get ⟨m, hmlt⟩)) := by
      rw [hchunk, List.getElem?_take, if_pos hj, List.getElem?_drop, hidx_eq,
        List.getElem?_map, hdm]
      rfl
    rw [hjval]
    constructor
    · intro hnone
      rw [hdm] at hnone
      exact Option.noConfusion hnone
    · intro v hv
      rw [hdm] at hv
      have hveq : v = d.get ⟨m, hmlt⟩ := by
        injection hv with hv
        exact hv.symm
      refine ⟨{ file := g, index := idxL C bl L d, block_length := bl, length := d.length, cache := some (m / bl, (chunksD C bl d).getD (m / bl) []) }, ?_⟩
      dsimp only
      rw [lawC.unser_ser, hveq]

theorem foldl_appendSession_good {ρ : Type} {C : Codec ρ} {bl : Nat}
    {cname sname : String} (lawC : LawfulCodec C) :
    ∀ (rest : List (List ρ)) (f : Bytes) (d : List ρ),
    GoodFile C bl cname sname f d →
    ∀ f', rest.foldlM (appendSession C) f = .ok f' →
    GoodFile C bl cname sname f' (d ++ rest.flatten) := by
  intro rest
  induction rest with
  | nil =>
    intro f d hgf f' hfold
    rw [List.foldlM_nil] at hfold
    injection hfold with hfold
    rw [← hfold]
    simpa using hgf
  | cons q qs ih =>
    intro f d hgf f' hfold
    rw [List.foldlM_cons] at hfold
    cases ha : appendSession C f q with
    | error e =>
      rw [ha] at hfold
      exact Except.noConfusion hfold
    | ok f1 =>
      rw [ha, ok_bind] at hfold
      have h1 := appendSession_good lawC hgf q f1 ha
      have h2 := ih f1 (d ++ q) h1 f' hfold
      rw [List.flatten_cons, ← List.append_assoc]
      exact h2

/-! ### Appending without filling a block leaves the file bytes untouched -/

theorem extendLoop_no_flush {ρ : Type} (C : Codec ρ) :
    ∀ (xs : List ρ) (W : WState ρ),
    W.cur_block.length + xs.length < W.block_length →
    xs.foldlM (extendStep C) W =
      .ok { W with cur_block := W.cur_block ++ xs.map C.ser, length := W.length + xs.length } := by
  intro xs
  induction xs with
  | nil =>
    intro W h
    rw [List.foldlM_nil, List.map_nil, List.append_nil]
    rfl
  | cons x xs ih =>
    intro W h
    rw [List.foldlM_cons, extendStep]
    dsimp only
    rw [List.length_cons] at h
    have hne : ¬ (W.cur_block ++ [C.ser x]).length = W.block_length := by
      rw [List.length_append, List.length_singleton]
      omega
    rw [if_neg hne, pure_bind]
    have hih := ih { W with cur_block := W.cur_block ++ [C.ser x], length := W.length + 1 }
      (by dsimp only; rw [List.length_append, List.length_singleton]; omega)
    rw [hih]
    dsimp only
    have hc : (W.cur_block ++ [C.ser x]) ++ List.map C.ser xs =
        W.cur_block ++ List.map C.ser (x :: xs) := by
      rw [List.map_cons, List.append_assoc, List.singleton_append]
    have hl : W.length + 1 + xs.length = W.length + (x :: xs).length := by
      rw [List.length_cons]
      omega
    rw [hc, hl]

theorem extendW_no_flush {ρ : Type} (C : Codec ρ) (xs : List ρ) (W : WState ρ)
    (h : W.cur_block.length + xs.length < W.block_length) :
    extendW C xs W =
      .ok { W with cur_block := W.cur_block ++ xs.map C.ser, length := W.length + xs.length } := by
  rw [extendW]
  have hne : ¬ W.cur_block.length = W.block_length := by omega
  rw [if_neg hne, pure_bind]
  exact extendLoop_no_flush C xs W h

/-! ### Arbitrary mid-session operation sequences -/

/-- One operation a client may invoke on an open writer or appender session. -/
inductive SessOp (ρ : Type) where
  | app (x : ρ)
  | ext (xs : List ρ)
  | flushF (force : Bool)

/-- Run one session operation on the writer state. -/
def applyOp (C : Codec ρ) (W : WState ρ) : SessOp ρ → Except Err (WState ρ)
  | .app x => appendW C x W
  | .ext xs => extendW C xs W
  | .flushF b => flushW C b W

/-- Run a sequence of session operations on the writer state. -/
def applyOps (C : Codec ρ) (ops : List (SessOp ρ)) (W : WState ρ) :
    Except Err (WState ρ) :=
  ops.foldlM (applyOp C) W

/-- Weak mid-session invariant: the cursor sits at end-of-file and the
original file bytes `f` are a prefix of the session file. -/
def SInv (f : Bytes) (W : WState ρ) : Prop :=
  W.pos = W.file.length ∧ ∃ t, W.file = f ++ t

theorem flushW_sinv {ρ : Type} (C : Codec ρ) (b : Bool) (f : Bytes) (W W' : WState ρ)
    (hs : SInv f W) (h : flushW C b W = .ok W') : SInv f W' := by
  obtain ⟨hpos, t, hfile⟩ := hs
  rw [flushW] at h
  by_cases h1 : W.cur_block.length ≠ W.block_length ∧ b = false
  · rw [if_pos h1] at h
    exact Except.noConfusion h
  · rw [if_neg h1] at h
    by_cases h2 : W.cur_block = []
    · rw [if_pos h2] at h
      injection h with h
      rw [← h]
      exact ⟨hpos, t, hfile⟩
    · rw [if_neg h2] at h
      injection h with h
      rw [← h]
      constructor
      · dsimp only
        rw [writeAt_eq_append _ _ _ hpos, hpos]
        simp [List.length_append]
      · dsimp only
        rw [writeAt_eq_append _ _ _ hpos, hfile, List.append_assoc]
        exact ⟨_, rfl⟩

theorem appendW_sinv {ρ : Type} (C : Codec ρ) (x : ρ) (f : Bytes) (W W' : WState ρ)
    (hs : SInv f W) (h : appendW C x W = .ok W') : SInv f W' := by
  rw [appendW] at h
  by_cases hc : W.cur_block.length = W.block_length
  · rw [if_pos hc] at h
    cases hf : flushW C false W with
    | error e =>
      rw [hf] at h
      exact Except.noConfusion h
    | ok W1 =>
      rw [hf, ok_bind] at h
      have hs1 := flushW_sinv C false f W W1 hs hf
      injection h with h
      rw [← h]
      exact ⟨hs1.1, hs1.2⟩
  · rw [if_neg hc, pure_bind] at h
    injection h with h
    rw [← h]
    exact ⟨hs.1, hs.2⟩

theorem extendStep_sinv {ρ : Type} (C : Codec ρ) (x : ρ) (f : Bytes) (W W' : WState ρ)
    (hs : SInv f W) (h : extendStep C W x = .ok W') : SInv f W' := by
  rw [extendStep] at h
  dsimp only at h
  split at h
  · exact flushW_sinv C false f { W with cur_block := W.cur_block ++ [C.ser x], length := W.length + 1 } W' ⟨hs.1, hs.2⟩ h
  · injection h with h
    rw [← h]
    exact ⟨hs.1, hs.2⟩

theorem extendLoop_sinv {ρ : Type} (C : Codec ρ) (f : Bytes) :
    ∀ (xs : List ρ) (W W' : WState ρ), SInv f W →
    xs.foldlM (extendStep C) W = .ok W' → SInv f W' := by
  intro xs
  induction xs with
  | nil =>
    intro W W' hs h
    rw [List.foldlM_nil] at h
    injection h with h
    rw [← h]
    exact hs
  | cons x xs ih =>
    intro W W' hs h
    rw [List.foldlM_cons] at h
    cases hstp : extendStep C W x with
    | error e =>
      rw [hstp] at h
      exact Except.noConfusion h
    | ok W1 =>
      rw [hstp, ok_bind] at h
      exact ih W1 W' (extendStep_sinv C x f W W1 hs hstp) h

theorem extendW_sinv {ρ : Type} (C : Codec ρ) (xs : List ρ) (f : Bytes) (W W' : WState ρ)
    (hs : SInv f W) (h : extendW C xs W = .ok W') : SInv f W' := by
  rw [extendW] at h
  by_cases hc : W.cur_block.length = W.block_length
  · rw [if_pos hc] at h
    cases hf : flushW C false W with
    | error e =>
      rw [hf] at h
      exact Except.noConfusion h
    | ok W1 =>
      rw [hf, ok_bind] at h
      exact extendLoop_sinv C f xs W1 W' (flushW_sinv C false f W W1 hs hf) h
  · rw [if_neg hc, pure_bind] at h
    exact extendLoop_sinv C f xs W W' hs h

theorem applyOp_sinv {ρ : Type} (C : Codec ρ) (op : SessOp ρ) (f : Bytes) (W W' : WState ρ)
    (hs : SInv f W) (h : applyOp C W op = .ok W') : SInv f W' := by
  cases op with
  | app x => exact appendW_sinv C x f W W' hs h
  | ext xs => exact extendW_sinv C xs f W W' hs h
  | flushF b => exact flushW_sinv C b f W W' hs h

theorem applyOps_sinv {ρ : Type} (C : Codec ρ) (f : Bytes) :
    ∀ (ops : List (SessOp ρ)) (W W' : WState ρ), SInv f W →
    applyOps C ops W = .ok W' → SInv f W' := by
  intro ops
  induction ops with
  | nil =>
    intro W W' hs h
    rw [applyOps, List.foldlM_nil] at h
    injection h with h
    rw [← h]
    exact hs
  | cons op ops ih =>
    intro W W' hs h
    rw [applyOps, List.foldlM_cons] at h
    cases hop : applyOp C W op with
    | error e =>
      rw [hop] at h
      exact Except.noConfusion h
    | ok W1 =>
      rw [hop, ok_bind] at h
      exact ih W1 W' (applyOp_sinv C op f W W1 hs hop) h

/-! ### Building `GoodAt` for an explicitly laid-out file -/

theorem readAt_all (x : Bytes) : readAt x 0 x.length = x := by
  simp [readAt]

theorem readAt_append_shift (a t : Bytes) (p n : Nat) :
    readAt (a ++ t) (a.length + p) n = readAt t p n := by
  have hd : (a ++ t).drop (a.length + p) = t.drop p := by
    rw [← List.drop_drop, List.drop_left]
  simp only [readAt, hd]

/-- A file consisting of preheader, header checksum, header bytes, `42`-padding
up to `HEADER_SPACE`, the concatenated blocks, and the checksummed index is a
closed dataset file, provided the block reads inside `body` are as flushed. -/
theorem goodAt_build {ρ : Type} (C : Codec ρ) (bl : Nat) (cname sname : String)
    (d : List ρ) (cs : List (List Bytes)) (starts : List Nat) (body : Bytes)
    (icomp hraw : Bytes)
    (hcs : chunksD C bl d = cs)
    (hbl : 1 ≤ bl) (hcn : cname ∈ compressionNames) (hsn : sname ∈ serializerNames)
    (hslen : starts.length = cs.length)
    (hlow : ∀ s ∈ starts, HEADER_SPACE ≤ s)
    (hicomp : icomp = C.compress (C.packIndex (idxOf C starts cs)))
    (hhraw : hraw = C.packHeader (mkHeader (HEADER_SPACE + body.length) icomp.length
      (C.packIndex (idxOf C starts cs)).length sname cname bl d.length))
    (hfit26 : 26 + hraw.length < HEADER_SPACE)
    (hhi : ∀ i, i < cs.length →
      starts.getD i 0 + (8 + (blockComp C (cs.getD i [])).length) ≤
        HEADER_SPACE + body.length)
    (hbody : ∀ i, i < cs.length →
      readAt body (starts.getD i 0 - HEADER_SPACE)
        (8 + (blockComp C (cs.getD i [])).length) = encBlock C (cs.getD i [])) :
    GoodAt C bl cname sname
      { hs := hraw.length, istart := HEADER_SPACE + body.length,
        isize := icomp.length, starts := starts }
      ((MAGIC ++ le16 VERSION ++ le32 hraw.length) ++ checksumB hraw ++ hraw ++
        List.replicate (HEADER_SPACE - (26 + hraw.length)) 42 ++ body ++
        (checksumB icomp ++ icomp)) d := by
  set L : Layout := ⟨hraw.length, HEADER_SPACE + body.length, icomp.length, starts⟩ with hL
  set pre : Bytes := MAGIC ++ le16 VERSION ++ le32 hraw.length with hpredef
  set pad : Bytes := List.replicate (HEADER_SPACE - (26 + hraw.length)) 42 with hpaddef
  set idxe : Bytes := checksumB icomp ++ icomp with hidxedef
  have hpre18 : pre.length = 18 := by
    rw [hpredef]
    simp [MAGIC, le16, le32]
  have hpadlen : pad.length = HEADER_SPACE - (26 + hraw.length) := by
    rw [hpaddef, List.length_replicate]
  have hidxelen : idxe.length = 8 + icomp.length := by
    rw [hidxedef, List.length_append, length_checksumB]
  have hidxL : idxL C bl L d = idxOf C starts cs := by
    rw [idxL]
    show idxOf C starts (chunksD C bl d) = _
    rw [hcs]
  have hic : icompOf C bl L d = icomp := by
    rw [icompOf, hidxL, ← hicomp]
  have hhr : hrawOf C bl cname sname L d = hraw := by
    rw [hrawOf, hdrOf, hidxL]
    show C.packHeader (mkHeader (HEADER_SPACE + body.length) icomp.length
      (C.packIndex (idxOf C starts cs)).length sname cname bl d.length) = hraw
    rw [← hhraw]
  refine ⟨hbl, hcn, hsn, ?_, hlow, ?_, ?_, ?_, ?_, ?_, ?_, ?_, ?_, ?_, ?_⟩
  · -- hstarts
    show starts.length = _
    rw [hcs]
    exact hslen
  · -- histart
    show HEADER_SPACE ≤ HEADER_SPACE + body.length
    omega
  · -- hisize
    show icomp.length = _
    rw [hic]
  · -- hhs
    show hraw.length = _
    rw [hhr]
  · -- hfit
    show 18 + hraw.length + 8 < HEADER_SPACE
    omega
  · -- hpre
    show readAt (pre ++ checksumB hraw ++ hraw ++ pad ++ body ++ idxe) 0 18 =
      MAGIC ++ (le16 VERSION ++ le32 hraw.length)
    have hassoc : pre ++ checksumB hraw ++ hraw ++ pad ++ body ++ idxe =
        (MAGIC ++ (le16 VERSION ++ le32 hraw.length)) ++
          (checksumB hraw ++ (hraw ++ (pad ++ (body ++ idxe)))) := by
      rw [hpredef]
      simp [List.append_assoc]
    rw [hassoc]
    exact readAt_start _ _ 18 (by simp [MAGIC, le16, le32])
  · -- hchk
    show readAt (pre ++ checksumB hraw ++ hraw ++ pad ++ body ++ idxe) 18 8 =
      checksumB (hrawOf C bl cname sname L d)
    rw [hhr]
    have hassoc : pre ++ checksumB hraw ++ hraw ++ pad ++ body ++ idxe =
        pre ++ (checksumB hraw ++ (hraw ++ (pad ++ (body ++ idxe)))) := by
      simp [List.append_assoc]
    rw [hassoc]
    exact readAt_seg pre (checksumB hraw) _ 18 8 hpre18.symm (length_checksumB hraw).symm
  · -- hraw
    show readAt (pre ++ checksumB hraw ++ hraw ++ pad ++ body ++ idxe) 26 hraw.length =
      hrawOf C bl cname sname L d
    rw [hhr]
    have hassoc : pre ++ checksumB hraw ++ hraw ++ pad ++ body ++ idxe =
        (pre ++ checksumB hraw) ++ (hraw ++ (pad ++ (body ++ idxe))) := by
      simp [List.append_assoc]
    rw [hassoc]
    exact readAt_seg (pre ++ checksumB hraw) hraw _ 26 hraw.length
      (by rw [List.length_append, hpre18, length_checksumB]) rfl
  · -- hidx
    show readAt (pre ++ checksumB hraw ++ hraw ++ pad ++ body ++ idxe)
        (HEADER_SPACE + body.length) (8 + icomp.length) =
      checksumB (icompOf C bl L d) ++ icompOf C bl L d
    rw [hic]
    have hassoc : pre ++ checksumB hraw ++ hraw ++ pad ++ body ++ idxe =
        (pre ++ checksumB hraw ++ hraw ++ pad ++ body) ++ idxe := rfl
    have hAlen : (pre ++ checksumB hraw ++ hraw ++ pad ++ body).length =
        HEADER_SPACE + body.length := by
      simp only [List.length_append, hpre18, length_checksumB, hpadlen]
      omega
    rw [hassoc, ← hAlen, readAt_append_right,
      List.take_of_length_le (by rw [hidxelen])]
  · -- hblocks
    intro i hi
    rw [hcs] at hi
    show readAt (pre ++ checksumB hraw ++ hraw ++ pad ++ body ++ idxe)
        (starts.getD i 0) (8 + (blockComp C ((chunksD C bl d).getD i [])).length) =
      encBlock C ((chunksD C bl d).getD i [])
    rw [hcs]
    have hsmem : starts.getD i 0 ∈ starts :=
      getD_mem_of_lt starts 0 i (by omega)
    have hs4096 : HEADER_SPACE ≤ starts.getD i 0 := hlow _ hsmem
    have hassoc : pre ++ checksumB hraw ++ hraw ++ pad ++ body ++ idxe =
        (pre ++ checksumB hraw ++ hraw ++ pad) ++ (body ++ idxe) := by
      simp [List.append_assoc]
    have hBlen : (pre ++ checksumB hraw ++ hraw ++ pad).length = HEADER_SPACE := by
      simp only [List.length_append, hpre18, length_checksumB, hpadlen]
      omega
    have hposeq : starts.getD i 0 =
        (pre ++ checksumB hraw ++ hraw ++ pad).length +
          (starts.getD i 0 - HEADER_SPACE) := by
      rw [hBlen]
      omega
    rw [hassoc, hposeq, readAt_append_shift,
      readAt_append_left _ _ _ _ (by have := hhi i hi; omega)]
    exact hbody i hi
  · -- hEOF
    show (pre ++ checksumB hraw ++ hraw ++ pad ++ body ++ idxe).length =
      HEADER_SPACE + body.length + 8 + icomp.length
    simp only [List.length_append, hpre18, length_checksumB, hpadlen, hidxelen]
    omega

/-! ### A concrete one-record dataset file -/

def cData : List Val := [Val.vint 5]

def cChunk : List Bytes := [serV (Val.vint 5)]

def cEnc : Bytes := encBlock CV cChunk

def cIdx : List (Nat × Nat × Nat) := idxOf CV [HEADER_SPACE] [cChunk]

def cIStart : Nat := HEADER_SPACE + cEnc.length

def cIComp : Bytes := CV.compress (CV.packIndex cIdx)

def cIdxEnc : Bytes := checksumB cIComp ++ cIComp

def cHraw : Bytes := CV.packHeader (mkHeader cIStart cIComp.length (CV.packIndex cIdx).length "msgpack" "zlib" 1 cData.length)

def cHdrData : Bytes := (MAGIC ++ le16 VERSION ++ le32 cHraw.length) ++ checksumB cHraw ++ cHraw

def cF1 : Bytes := writeAt (List.replicate HEADER_SPACE 42) HEADER_SPACE cEnc

def cF2 : Bytes := writeAt cF1 cIStart cIdxEnc

def cFile : Bytes := writeAt cF2 0 cHdrData

def cL : Layout := ⟨cHraw.length, HEADER_SPACE + cEnc.length, cIComp.length, [HEADER_SPACE]⟩

def cW1 : WState Val :=
  ⟨cF1, HEADER_SPACE + cEnc.length, 1, 1, "zlib", "msgpack", [], 1, cIdx⟩

set_option maxRecDepth 3000 in
theorem cStep1 : extendW CV cData (initState Val 1 "zlib" "msgpack") = .ok cW1 := rfl

def cWi : WState Val :=
  ⟨cF2, cIStart + cIdxEnc.length, 1, 1, "zlib", "msgpack", [], 1, cIdx⟩

def cW2 : WState Val :=
  ⟨cFile, cHdrData.length, 1, 1, "zlib", "msgpack", [], 1, cIdx⟩

set_option maxRecDepth 3000 in
theorem cFlushTrue : flushW CV true cW1 = .ok cW1 := rfl

set_option maxRecDepth 3000 in
theorem cWIdx : writeIndexW CV cW1 = (cWi, cIStart, cIComp.length, (CV.packIndex cIdx).length) := rfl

set_option maxRecDepth 3000 in
theorem cWHdr : writeHeaderW CV cWi cIStart cIComp.length (CV.packIndex cIdx).length = .ok cW2 := rfl

theorem cStep2 : closeW CV cW1 = .ok cW2 := by
  rw [closeW, cFlushTrue, ok_bind, cWIdx]
  exact cWHdr

theorem cWS : writeSession CV 1 "zlib" "msgpack" cData = .ok cFile := by
  rw [writeSession, initW_ok Val 1 "zlib" "msgpack" (by decide) (by decide) (by decide),
    ok_bind, cStep1, ok_bind, cStep2, ok_bind]
  rfl

theorem cChunksEq : chunksD CV 1 cData = [cChunk] := by
  rw [chunksD]
  show chunksOf 1 [serV (Val.vint 5)] = [cChunk]
  rw [chunksOf]
  simp [cChunk]

theorem cHdrDataLen : cHdrData.length = 26 + cHraw.length := by
  rw [cHdrData]
  simp [MAGIC, le16, le32, length_checksumB, List.length_append]
  omega

theorem cFileEq : cFile =
    (MAGIC ++ le16 VERSION ++ le32 cHraw.length) ++ checksumB cHraw ++ cHraw ++
      List.replicate (HEADER_SPACE - (26 + cHraw.length)) 42 ++ cEnc ++
      (checksumB cIComp ++ cIComp) := by
  have e1 : cF1 = List.replicate HEADER_SPACE 42 ++ cEnc :=
    writeAt_eq_append _ _ _ (List.length_replicate _ _).symm
  have e2 : cF2 = List.replicate HEADER_SPACE 42 ++ cEnc ++ cIdxEnc := by
    rw [cF2, e1, writeAt_eq_append _ _ _ (by rw [List.length_append, List.length_replicate]; rfl)]
  have hle : cHdrData.length ≤ HEADER_SPACE := by
    rw [cHdrDataLen]
    have : cHraw.length = 106 := by decide
    rw [this]
    decide
  have e3 : cFile = cHdrData ++ (List.replicate HEADER_SPACE 42 ++ cEnc ++ cIdxEnc).drop cHdrData.length := by
    rw [cFile, e2, writeAt_zero]
  rw [e3, List.drop_append_of_le_length (by rw [List.length_append, List.length_replicate]; omega),
    List.drop_append_of_le_length (by rw [List.length_replicate]; omega),
    List.drop_replicate, cHdrDataLen]
  rw [cHdrData, cIdxEnc]
  simp [List.append_assoc]

theorem cGood : GoodAt CV 1 "zlib" "msgpack" cL cFile cData := by
  have h := goodAt_build CV 1 "zlib" "msgpack" cData [cChunk] [HEADER_SPACE] cEnc
    cIComp cHraw cChunksEq (by decide) (by decide) (by decide) rfl
    (by intro s hs; simp at hs; omega) rfl rfl
    (by have : cHraw.length = 106 := by decide
        rw [this]
        decide)
    (by intro i hi
        simp only [List.length_cons, List.length_nil] at hi
        have hi0 : i = 0 := by omega
        subst hi0
        decide)
    (by intro i hi
        simp only [List.length_cons, List.length_nil] at hi
        have hi0 : i = 0 := by omega
        subst hi0
        decide)
  rw [← cFileEq] at h
  exact h

/-! ### A concrete second (appender) session on the same file -/

theorem cIdxLEq : idxL CV 1 cL cData = cIdx := by
  rw [idxL, cChunksEq]
  rfl

theorem cHdrEq : hdrOf CV 1 "zlib" "msgpack" cL cData =
    mkHeader cIStart cIComp.length (CV.packIndex cIdx).length "msgpack" "zlib" 1 1 := by
  rw [hdrOf, cIdxLEq]
  rfl

def cPosAb : Nat := cIStart + CHECKSUM_LEN + cIComp.length

def cA : WState Val := ⟨cFile, cPosAb, 1, 1, "zlib", "msgpack", [], 1, cIdx⟩

theorem cAppEq : appenderInitB CV cFile = .ok cA := by
  rw [appenderInitB,
    readHeaderB_good CV_lawful cGood cFile (cGood.hdrReads cFile (extOf_self cFile)),
    ok_bind, cHdrEq, hgetNat_index_start, ok_bind, hgetNat_index_size, ok_bind]
  have hidx : readIndexB CV cFile cIStart cIComp.length = .ok cIdx := by
    have h := readIndexB_good CV_lawful cGood cFile (extOf_self cFile)
    rw [cIdxLEq] at h
    exact h
  rw [hidx, ok_bind, hgetNat_block_length, ok_bind, hgetNat_length, ok_bind,
    hgetStr_compression, ok_bind, hgetStr_serializer, ok_bind]
  rfl

def cChunk2 : List Bytes := [serV (Val.vint 7)]

def cEnc2 : Bytes := encBlock CV cChunk2

def cFileAb : Bytes := writeAt cFile cPosAb cEnc2

def cIdx2 : List (Nat × Nat × Nat) :=
  cIdx ++ [(cPosAb, (blockComp CV cChunk2).length, (CV.packList cChunk2).length)]

def cA2 : WState Val :=
  ⟨cFileAb, cPosAb + cEnc2.length, 1, 2, "zlib", "msgpack", [], 2, cIdx2⟩

set_option maxRecDepth 3000 in
theorem cExtEq : extendW CV [Val.vint 7] cA = .ok cA2 := rfl

theorem cPosAbEq : cPosAb = cFile.length := by
  rw [cGood.hEOF]
  rfl

theorem cFileAbEq : cFileAb = cFile ++ cEnc2 :=
  writeAt_eq_append _ _ _ cPosAbEq

def cIComp2 : Bytes := CV.compress (CV.packIndex cIdx2)

def cIdxEnc2 : Bytes := checksumB cIComp2 ++ cIComp2

def cHraw2 : Bytes := CV.packHeader (mkHeader (cPosAb + cEnc2.length) cIComp2.length (CV.packIndex cIdx2).length "msgpack" "zlib" 1 2)

def cHdrData2 : Bytes := (MAGIC ++ le16 VERSION ++ le32 cHraw2.length) ++ checksumB cHraw2 ++ cHraw2

def cF2b : Bytes := writeAt cFileAb (cPosAb + cEnc2.length) cIdxEnc2

def cFile2 : Bytes := writeAt cF2b 0 cHdrData2

def cWi2 : WState Val :=
  ⟨cF2b, cPosAb + cEnc2.length + cIdxEnc2.length, 1, 2, "zlib", "msgpack", [], 2, cIdx2⟩

def cW2b : WState Val :=
  ⟨cFile2, cHdrData2.length, 1, 2, "zlib", "msgpack", [], 2, cIdx2⟩

set_option maxRecDepth 3000 in
theorem cFlushTrue2 : flushW CV true cA2 = .ok cA2 := rfl

set_option maxRecDepth 3000 in
theorem cWIdx2 : writeIndexW CV cA2 = (cWi2, cPosAb + cEnc2.length, cIComp2.length, (CV.packIndex cIdx2).length) := rfl

set_option maxRecDepth 3000 in
theorem cWHdr2 : writeHeaderW CV cWi2 (cPosAb + cEnc2.length) cIComp2.length (CV.packIndex cIdx2).length = .ok cW2b := rfl

theorem cStep2b : closeW CV cA2 = .ok cW2b := by
  rw [closeW, cFlushTrue2, ok_bind, cWIdx2]
  exact cWHdr2

theorem cAppendSess : appendSession CV cFile [Val.vint 7] = .ok cFile2 := by
  rw [appendSession, cAppEq, ok_bind, cExtEq, ok_bind, cStep2b, ok_bind]
  rfl

theorem cMulti : multiSession CV 1 "zlib" "msgpack" cData [[Val.vint 7]] = .ok cFile2 := by
  rw [multiSession, cWS, ok_bind, List.foldlM_cons, cAppendSess, ok_bind, List.foldlM_nil]
  rfl

/-! ### Single-byte corruption is detected by the checksums -/

theorem readHeaderB_corrupt {ρ : Type} {C : Codec ρ} {bl : Nat} {cname sname : String}
    {L : Layout} {f : Bytes} {d : List ρ}
    (good : GoodAt C bl cname sname L f d) (p b v : Nat)
    (hp1 : 26 ≤ p) (hp2 : p < 26 + L.hs)
    (hv : f[p]? = some v) (hvlt : v < 65521) (hblt : b < 65521) (hne : b ≠ v) :
    readHeaderB C (f.set p b) = .error .headerChecksum := by
  have hout : ∀ q n, q + n ≤ 26 → readAt (f.set p b) q n = readAt f q n := by
    intro q n hqn
    exact readAt_set_outside f p b q n (Or.inl (by omega))
  have hPre : readPre (f.set p b) = readPre f := by
    rw [readPre, readPre, hout 0 12 (by omega), hout 12 2 (by omega), hout 14 4 (by omega)]
  have hPref : readPre f = .ok (VERSION, L.hs) :=
    good.readPre_good f (fun _ _ _ => rfl)
  have hplen : p < f.length := by
    have h1 := good.hfit
    have h2 := good.histart
    have h3 := good.hEOF
    simp only [HEADER_SPACE] at h1 h2
    omega
  have hchk : readAt (f.set p b) 18 8 = checksumB (hrawOf C bl cname sname L d) := by
    rw [hout 18 8 (by omega)]
    exact good.hchk
  have hrw : readAt (f.set p b) 26 L.hs = (hrawOf C bl cname sname L d).set (p - 26) b := by
    rw [readAt_set_inside f p b 26 L.hs hp1 hp2 hplen, good.hraw]
  have hvr : (hrawOf C bl cname sname L d)[p - 26]? = some v := by
    rw [← good.hraw, getElem?_readAt f 26 L.hs (p - 26) (by omega),
      show 26 + (p - 26) = p from by omega]
    exact hv
  have hneq : checksumB ((hrawOf C bl cname sname L d).set (p - 26) b) ≠
      checksumB (hrawOf C bl cname sname L d) :=
    checksumB_set_ne _ _ _ _ hvr hvlt hblt hne
  rw [readHeaderB, hPre, hPref]
  simp only [Bind.bind, Except.bind, CHECKSUM_LEN]
  rw [if_neg (by decide : ¬(VERSION ≠ VERSION))]
  rw [show (18 + 8 : Nat) = 26 from rfl, hchk, hrw]
  rw [if_pos hneq]
  rfl

theorem readerInitB_corrupt_index {ρ : Type} {C : Codec ρ} {bl : Nat}
    {cname sname : String} {L : Layout} {f : Bytes} {d : List ρ}
    (lawC : LawfulCodec C) (good : GoodAt C bl cname sname L f d) (p b v : Nat)
    (hp1 : L.istart + 8 ≤ p) (hp2 : p < L.istart + 8 + L.isize)
    (hv : f[p]? = some v) (hvlt : v < 65521) (hblt : b < 65521) (hne : b ≠ v) :
    readerInitB C (f.set p b) = .error .indexChecksum := by
  have hEOF := good.hEOF
  have hdr : HdrReads L f (f.set p b) := by
    intro q n hqn
    apply readAt_set_outside
    left
    have h1 := good.hfit
    have h2 := good.histart
    simp only [HEADER_SPACE] at h1 h2
    omega
  obtain ⟨hcs, hcomp⟩ := readAt_split f L.istart (checksumB (icompOf C bl L d))
    (icompOf C bl L d) L.isize good.hisize.symm
    (by rw [length_checksumB]; exact good.hidx)
  rw [length_checksumB] at hcs hcomp
  have hcsg : readAt (f.set p b) L.istart 8 = checksumB (icompOf C bl L d) := by
    rw [readAt_set_outside f p b L.istart 8 (Or.inl (by omega))]
    exact hcs
  have hcompg : readAt (f.set p b) (L.istart + 8) L.isize =
      (icompOf C bl L d).set (p - (L.istart + 8)) b := by
    rw [readAt_set_inside f p b (L.istart + 8) L.isize hp1 hp2 (by omega), hcomp]
  have hvr : (icompOf C bl L d)[p - (L.istart + 8)]? = some v := by
    rw [← hcomp, getElem?_readAt f (L.istart + 8) L.isize _ (by omega),
      show L.istart + 8 + (p - (L.istart + 8)) = p from by omega]
    exact hv
  have hneq : checksumB ((icompOf C bl L d).set (p - (L.istart + 8)) b) ≠
      checksumB (icompOf C bl L d) :=
    checksumB_set_ne _ _ _ _ hvr hvlt hblt hne
  rw [readerInitB, readHeaderB_good lawC good (f.set p b) hdr, ok_bind, hdrOf,
    hgetNat_index_start, ok_bind, hgetNat_index_size, ok_bind]
  rw [readIndexB]
  simp only [CHECKSUM_LEN]
  rw [hcsg, hcompg, if_pos hneq]
  rfl

theorem readBlockB_corrupt {ρ : Type} {C : Codec ρ} {bl : Nat}
    {cname sname : String} {L : Layout} {f : Bytes} {d : List ρ}
    (good : GoodAt C bl cname sname L f d) (i : Nat)
    (hi : i < (chunksD C bl d).length) (p b v : Nat)
    (hp1 : L.starts.getD i 0 + 8 ≤ p)
    (hp2 : p < L.starts.getD i 0 + 8 + (blockComp C ((chunksD C bl d).getD i [])).length)
    (hv : f[p]? = some v) (hvlt : v < 65521) (hblt : b < 65521) (hne : b ≠ v) :
    readBlockB C (f.set p b) (idxL C bl L d) i = .error (.blockChecksum i) := by
  have hb := good.hblocks i hi
  have hlb : (readAt f (L.starts.getD i 0)
      (8 + (blockComp C ((chunksD C bl d).getD i [])).length)).length =
      8 + (blockComp C ((chunksD C bl d).getD i [])).length := by
    rw [hb, length_encBlock]
  have hbound := readAt_length_le f _ _ (by omega) hlb
  obtain ⟨hcs, hcomp⟩ := readAt_split f (L.starts.getD i 0)
    (checksumB (blockComp C ((chunksD C bl d).getD i [])))
    (blockComp C ((chunksD C bl d).getD i []))
    (blockComp C ((chunksD C bl d).getD i [])).length rfl
    (by rw [length_checksumB]; exact hb)
  rw [length_checksumB] at hcs hcomp
  have hcsg : readAt (f.set p b) (L.starts.getD i 0) 8 =
      checksumB (blockComp C ((chunksD C bl d).getD i [])) := by
    rw [readAt_set_outside f p b _ 8 (Or.inl (by omega))]
    exact hcs
  have hcompg : readAt (f.set p b) (L.starts.getD i 0 + 8)
      (blockComp C ((chunksD C bl d).getD i [])).length =
      (blockComp C ((chunksD C bl d).getD i [])).set (p - (L.starts.getD i 0 + 8)) b := by
    rw [readAt_set_inside f p b _ _ hp1 hp2 (by omega), hcomp]
  have hvr : (blockComp C ((chunksD C bl d).getD i []))[p - (L.starts.getD i 0 + 8)]? =
      some v := by
    rw [← hcomp, getElem?_readAt f (L.starts.getD i 0 + 8) _ _ (by omega),
      show L.starts.getD i 0 + 8 + (p - (L.starts.getD i 0 + 8)) = p from by omega]
    exact hv
  have hneq : checksumB ((blockComp C ((chunksD C bl d).getD i [])).set
      (p - (L.starts.getD i 0 + 8)) b) ≠
      checksumB (blockComp C ((chunksD C bl d).getD i [])) :=
    checksumB_set_ne _ _ _ _ hvr hvlt hblt hne
  rw [readBlockB, idxL_getElem? good i hi]
  dsimp only
  simp only [CHECKSUM_LEN]
  rw [hcsg, hcompg, if_pos hneq]

theorem loadBlockB_corrupt {ρ : Type} {C : Codec ρ} {bl : Nat}
    {cname sname : String} {L : Layout} {f : Bytes} {d : List ρ}
    (good : GoodAt C bl cname sname L f d) (i : Nat)
    (hi : i < (chunksD C bl d).length) (p b v : Nat)
    (hp1 : L.starts.getD i 0 + 8 ≤ p)
    (hp2 : p < L.starts.getD i 0 + 8 + (blockComp C ((chunksD C bl d).getD i [])).length)
    (hv : f[p]? = some v) (hvlt : v < 65521) (hblt : b < 65521) (hne : b ≠ v) :
    loadBlockB C ⟨f.set p b, idxL C bl L d, bl, d.length, none⟩ i =
      .error (.blockChecksum i) := by
  rw [loadBlockB]
  show (readBlockB C (f.set p b) (idxL C bl L d) i >>= _) = _
  rw [readBlockB_corrupt good i hi p b v hp1 hp2 hv hvlt hblt hne]
  rfl

/-! ### A concrete two-record dataset file (the `dset_sort` input) -/

def dData : List Val := [Val.vint 1, Val.vint 0]

def dChunk0 : List Bytes := [serV (Val.vint 1)]

def dChunk1 : List Bytes := [serV (Val.vint 0)]

def dEnc0 : Bytes := encBlock CV dChunk0

def dEnc1 : Bytes := encBlock CV dChunk1

def dStart1 : Nat := HEADER_SPACE + dEnc0.length

def dIdx : List (Nat × Nat × Nat) := idxOf CV [HEADER_SPACE, dStart1] [dChunk0, dChunk1]

def dIStart : Nat := dStart1 + dEnc1.length

def dIComp : Bytes := CV.compress (CV.packIndex dIdx)

def dIdxEnc : Bytes := checksumB dIComp ++ dIComp

def dHraw : Bytes := CV.packHeader (mkHeader dIStart dIComp.length (CV.packIndex dIdx).length "msgpack" "zlib" 1 dData.length)

def dHdrData : Bytes := (MAGIC ++ le16 VERSION ++ le32 dHraw.length) ++ checksumB dHraw ++ dHraw

def dF1 : Bytes := writeAt (List.replicate HEADER_SPACE 42) HEADER_SPACE dEnc0

def dF2 : Bytes := writeAt dF1 dStart1 dEnc1

def dF3 : Bytes := writeAt dF2 dIStart dIdxEnc

def dFile : Bytes := writeAt dF3 0 dHdrData

def dL : Layout := ⟨dHraw.length, HEADER_SPACE + (dEnc0 ++ dEnc1).length, dIComp.length, [HEADER_SPACE, dStart1]⟩

def dW1 : WState Val := ⟨dF2, dIStart, 1, 2, "zlib", "msgpack", [], 2, dIdx⟩

def dWi : WState Val := ⟨dF3, dIStart + dIdxEnc.length, 1, 2, "zlib", "msgpack", [], 2, dIdx⟩

def dW2 : WState Val := ⟨dFile, dHdrData.length, 1, 2, "zlib", "msgpack", [], 2, dIdx⟩

def dWa : WState Val :=
  ⟨dF1, dStart1, 1, 1, "zlib", "msgpack", [], 1, idxOf CV [HEADER_SPACE] [dChunk0]⟩

set_option maxRecDepth 3000 in
theorem dStepA : extendStep CV (initState Val 1 "zlib" "msgpack") (Val.vint 1) = .ok dWa := rfl

set_option maxRecDepth 3000 in
theorem dStepB : extendStep CV dWa (Val.vint 0) = .ok dW1 := rfl

theorem dStepE : extendW CV dData (initState Val 1 "zlib" "msgpack") = .ok dW1 := by
  rw [extendW, if_neg (by decide), pure_bind]
  show List.foldlM (extendStep CV) (initState Val 1 "zlib" "msgpack")
    [Val.vint 1, Val.vint 0] = .ok dW1
  rw [List.foldlM_cons, dStepA, ok_bind, List.foldlM_cons, dStepB, ok_bind,
    List.foldlM_nil]
  rfl

set_option maxRecDepth 3000 in
theorem dFlushTrue : flushW CV true dW1 = .ok dW1 := rfl

set_option maxRecDepth 3000 in
theorem dWIdx : writeIndexW CV dW1 = (dWi, dIStart, dIComp.length, (CV.packIndex dIdx).length) := rfl

set_option maxRecDepth 3000 in
theorem dWHdr : writeHeaderW CV dWi dIStart dIComp.length (CV.packIndex dIdx).length = .ok dW2 := rfl

theorem dStep2 : closeW CV dW1 = .ok dW2 := by
  rw [closeW, dFlushTrue, ok_bind, dWIdx]
  exact dWHdr

theorem dWS : writeSession CV 1 "zlib" "msgpack" dData = .ok dFile := by
  rw [writeSession, initW_ok Val 1 "zlib" "msgpack" (by decide) (by decide) (by decide),
    ok_bind, dStepE, ok_bind, dStep2, ok_bind]
  rfl

theorem dChunksEq : chunksD CV 1 dData = [dChunk0, dChunk1] := by
  rw [chunksD]
  show chunksOf 1 [serV (Val.vint 1), serV (Val.vint 0)] = [dChunk0, dChunk1]
  simp [chunksOf, dChunk0, dChunk1]

theorem dHdrDataLen : dHdrData.length = 26 + dHraw.length := by
  rw [dHdrData]
  simp [MAGIC, le16, le32, length_checksumB, List.length_append]
  omega

theorem dFileEq : dFile =
    (MAGIC ++ le16 VERSION ++ le32 dHraw.length) ++ checksumB dHraw ++ dHraw ++
      List.replicate (HEADER_SPACE - (26 + dHraw.length)) 42 ++ (dEnc0 ++ dEnc1) ++
      (checksumB dIComp ++ dIComp) := by
  have e1 : dF1 = List.replicate HEADER_SPACE 42 ++ dEnc0 :=
    writeAt_eq_append _ _ _ (List.length_replicate _ _).symm
  have e2 : dF2 = List.replicate HEADER_SPACE 42 ++ dEnc0 ++ dEnc1 := by
    rw [dF2, e1, writeAt_eq_append _ _ _ (by rw [List.length_append, List.length_replicate]; rfl)]
  have e3 : dF3 = List.replicate HEADER_SPACE 42 ++ dEnc0 ++ dEnc1 ++ dIdxEnc := by
    rw [dF3, e2, writeAt_eq_append _ _ _
      (by rw [List.length_append, List.length_append, List.length_replicate]; rfl)]
  have hle : dHdrData.length ≤ HEADER_SPACE := by
    rw [dHdrDataLen]
    have : dHraw.length = 106 := by decide
    rw [this]
    decide
  have e4 : dFile = dHdrData ++ (List.replicate HEADER_SPACE 42 ++ dEnc0 ++ dEnc1 ++ dIdxEnc).drop dHdrData.length := by
    rw [dFile, e3, writeAt_zero]
  rw [e4,
    List.drop_append_of_le_length (by simp only [List.length_append, List.length_replicate]; omega),
    List.drop_append_of_le_length (by simp only [List.length_append, List.length_replicate]; omega),
    List.drop_append_of_le_length (by rw [List.length_replicate]; omega),
    List.drop_replicate, dHdrDataLen]
  rw [dHdrData]
  simp [dIdxEnc, List.append_assoc]

theorem dGood : GoodAt CV 1 "zlib" "msgpack" dL dFile dData := by
  have h := goodAt_build CV 1 "zlib" "msgpack" dData [dChunk0, dChunk1]
    [HEADER_SPACE, dStart1] (dEnc0 ++ dEnc1) dIComp dHraw dChunksEq
    (by decide) (by decide) (by decide) rfl
    (by intro s hs
        simp at hs
        rcases hs with h | h <;> subst h <;> decide)
    rfl rfl
    (by have : dHraw.length = 106 := by decide
        rw [this]
        decide)
    (by intro i hi
        simp only [List.length_cons, List.length_nil] at hi
        match i with
        | 0 => decide
        | 1 => decide
        | n + 2 => omega)
    (by intro i hi
        simp only [List.length_cons, List.length_nil] at hi
        match i with
        | 0 => decide
        | 1 => decide
        | n + 2 => omega)
  rw [← dFileEq] at h
  exact h


def keyV : Val → Int
  | .vint n => n
  | .vbytes _ => 0

def sV0 : Val := Val.vbytes (serV (Val.vint 0))
def sV1 : Val := Val.vbytes (serV (Val.vint 1))

def sChunk0 : List Bytes := [serV (Val.vbytes (serV (Val.vint 0)))]
def sChunk1 : List Bytes := [serV (Val.vbytes (serV (Val.vint 1)))]
def sEnc0 : Bytes := encBlock CV sChunk0
def sEnc1 : Bytes := encBlock CV sChunk1
def sStart1 : Nat := HEADER_SPACE + sEnc0.length
def sF1 : Bytes := writeAt (List.replicate HEADER_SPACE 42) HEADER_SPACE sEnc0
def sF2 : Bytes := writeAt sF1 sStart1 sEnc1
def sWa : WState Val := ⟨sF1, sStart1, 1, 1, "zlib", "msgpack", [], 1, idxOf CV [HEADER_SPACE] [sChunk0]⟩
def sWb : WState Val := ⟨sF2, sStart1 + sEnc1.length, 1, 2, "zlib", "msgpack", [], 2, idxOf CV [HEADER_SPACE, sStart1] [sChunk0, sChunk1]⟩

set_option maxRecDepth 3000 in
theorem sStepA : extendW CV [Val.vbytes (serV (Val.vint 0))] (initState Val 1 "zlib" "msgpack") = .ok sWa := rfl

set_option maxRecDepth 3000 in
theorem sStepB : extendW CV [Val.vbytes (serV (Val.vint 1))] sWa = .ok sWb := rfl

theorem stOf_block_length {ρ : Type} (C : Codec ρ) (bl : Nat) (L : Layout) (g : Bytes) (d : List ρ) :
    (stOf C bl L g d).block_length = bl := rfl

theorem dSortRun {L : Layout} (good : GoodAt CV 1 "zlib" "msgpack" L dFile dData) :
    dsetSortM CV Val.vbytes keyV 1 (stOf CV 1 L dFile dData)
      (initState Val 1 "zlib" "msgpack") = .ok sWb := by
  rw [dsetSortM, readerItemsB_good CV_lawful good dFile (extOf_self dFile), ok_bind]
  have hco : chunksOf (1 * (stOf CV 1 L dFile dData).block_length)
      (argsortM (dData.map keyV)) = [[1], [0]] := by
    show chunksOf 1 [1, 0] = [[1], [0]]
    simp [chunksOf]
  dsimp only
  rw [hco, List.foldlM_cons]
  rw [show sortBySrc (List.map (fun p => (p.2, p.1)) ([1] : List Nat).enum) = [(1, 0)] from rfl]
  rw [show List.replicate ([1] : List Nat).length ([] : Bytes) = [[]] from rfl]
  rw [List.foldlM_cons]
  have hload1 : loadBlockB CV (stOf CV 1 L dFile dData) 1 = .ok [serV (Val.vint 0)] := by
    have hi : (1 : Nat) < (chunksD CV 1 dData).length := by rw [dChunksEq]; decide
    have h := loadBlockB_good CV_lawful good dFile (extOf_self dFile) 1 hi
    rw [dChunksEq] at h
    exact h
  have hload0 : loadBlockB CV (stOf CV 1 L dFile dData) 0 = .ok [serV (Val.vint 1)] := by
    have hi : (0 : Nat) < (chunksD CV 1 dData).length := by rw [dChunksEq]; decide
    have h := loadBlockB_good CV_lawful good dFile (extOf_self dFile) 0 hi
    rw [dChunksEq] at h
    exact h
  rw [stOf_block_length]
  rw [show ((1, 0) : Nat × Nat).1 / 1 = 1 from by decide]
  rw [show ((1, 0) : Nat × Nat).1 % 1 = 0 from by decide]
  rw [hload1, ok_bind]
  rw [show ([serV (Val.vint 0)] : List Bytes)[(0 : Nat)]? = some (serV (Val.vint 0)) from rfl]
  dsimp only
  rw [show ([[]] : List Bytes).set ((1, 0) : Nat × Nat).2 (serV (Val.vint 0)) = [serV (Val.vint 0)] from rfl]
  rw [pure_bind, List.foldlM_nil, pure_bind]
  rw [show List.map Val.vbytes [serV (Val.vint 0)] = [Val.vbytes (serV (Val.vint 0))] from rfl]
  rw [sStepA, ok_bind, List.foldlM_cons]
  rw [show sortBySrc (List.map (fun p => (p.2, p.1)) ([0] : List Nat).enum) = [(0, 0)] from rfl]
  rw [show List.replicate ([0] : List Nat).length ([] : Bytes) = [[]] from rfl]
  rw [List.foldlM_cons]
  rw [show ((0, 0) : Nat × Nat).1 / 1 = 0 from by decide]
  rw [show ((0, 0) : Nat × Nat).1 % 1 = 0 from by decide]
  rw [hload0, ok_bind]
  rw [show ([serV (Val.vint 1)] : List Bytes)[(0 : Nat)]? = some (serV (Val.vint 1)) from rfl]
  dsimp only
  rw [show ([[]] : List Bytes).set ((0, 0) : Nat × Nat).2 (serV (Val.vint 1)) = [serV (Val.vint 1)] from rfl]
  rw [pure_bind, List.foldlM_nil, pure_bind]
  rw [show List.map Val.vbytes [serV (Val.vint 1)] = [Val.vbytes (serV (Val.vint 1))] from rfl]
  rw [sStepB, ok_bind, List.foldlM_nil]
  rfl

theorem cv_header_len (a b c bl l : Nat) :
    (CV.packHeader (mkHeader a b c "msgpack" "zlib" bl l)).length = 106 := rfl

theorem closeW_ok_cv (W : WState Val) (he : W.cur_block = [])
    (hser : W.serializer = "msgpack") (hcomp : W.compression = "zlib") :
    ∃ W'', closeW CV W = .ok W'' := by
  rw [closeW, flushW_empty CV true W he (Or.inr rfl), ok_bind, writeIndexW]
  dsimp only
  rw [writeHeaderW, hser, hcomp]
  dsimp only
  rw [if_pos]
  · exact ⟨_, rfl⟩
  · rw [cv_header_len]
    simp [MAGIC, le16, le32, length_checksumB]
    decide

def sortSession {ρ : Type} (C : Codec ρ) (embed : Bytes → ρ) (keyfn : ρ → Int)
    (cacheBlocks bl : Nat) (cname sname : String) (fin : Bytes) : Except Err Bytes := do
  let din ← readerInitB C fin
  let dout ← initW ρ bl cname sname
  let dout ← dsetSortM C embed keyfn cacheBlocks din dout
  let dout ← closeW C dout
  pure dout.file

def pyInsertBy {ρ : Type} (keyfn : ρ → Int) (x : ρ) : List ρ → List ρ
  | [] => [x]
  | y :: rest => if keyfn x < keyfn y then x :: y :: rest else y :: pyInsertBy keyfn x rest

def pySortedBy {ρ : Type} (keyfn : ρ → Int) (l : List ρ) : List ρ :=
  l.foldr (pyInsertBy keyfn) []

/-! ### A concrete dataset file with `block_length = 2` -/

def eData : List Val := [Val.vint 5, Val.vint 6]

def eChunk : List Bytes := [serV (Val.vint 5), serV (Val.vint 6)]

def eEnc : Bytes := encBlock CV eChunk

def eIdx : List (Nat × Nat × Nat) := idxOf CV [HEADER_SPACE] [eChunk]

def eIStart : Nat := HEADER_SPACE + eEnc.length

def eIComp : Bytes := CV.compress (CV.packIndex eIdx)

def eIdxEnc : Bytes := checksumB eIComp ++ eIComp

def eHraw : Bytes := CV.packHeader (mkHeader eIStart eIComp.length (CV.packIndex eIdx).length "msgpack" "zlib" 2 eData.length)

def eHdrData : Bytes := (MAGIC ++ le16 VERSION ++ le32 eHraw.length) ++ checksumB eHraw ++ eHraw

def eF1 : Bytes := writeAt (List.replicate HEADER_SPACE 42) HEADER_SPACE eEnc

def eF2 : Bytes := writeAt eF1 eIStart eIdxEnc

def eFile : Bytes := writeAt eF2 0 eHdrData

def eL : Layout := ⟨eHraw.length, HEADER_SPACE + eEnc.length, eIComp.length, [HEADER_SPACE]⟩

def eW1 : WState Val := ⟨eF1, HEADER_SPACE + eEnc.length, 2, 2, "zlib", "msgpack", [], 1, eIdx⟩

def eWi : WState Val := ⟨eF2, eIStart + eIdxEnc.length, 2, 2, "zlib", "msgpack", [], 1, eIdx⟩

def eW2 : WState Val := ⟨eFile, eHdrData.length, 2, 2, "zlib", "msgpack", [], 1, eIdx⟩

set_option maxRecDepth 3000 in
theorem eStep1 : extendW CV eData (initState Val 2 "zlib" "msgpack") = .ok eW1 := rfl

set_option maxRecDepth 3000 in
theorem eFlushTrue : flushW CV true eW1 = .ok eW1 := rfl

set_option maxRecDepth 3000 in
theorem eWIdx : writeIndexW CV eW1 = (eWi, eIStart, eIComp.length, (CV.packIndex eIdx).length) := rfl

set_option maxRecDepth 3000 in
theorem eWHdr : writeHeaderW CV eWi eIStart eIComp.length (CV.packIndex eIdx).length = .ok eW2 := rfl

theorem eStep2 : closeW CV eW1 = .ok eW2 := by
  rw [closeW, eFlushTrue, ok_bind, eWIdx]
  exact eWHdr

theorem eWS : writeSession CV 2 "zlib" "msgpack" eData = .ok eFile := by
  rw [writeSession, initW_ok Val 2 "zlib" "msgpack" (by decide) (by decide) (by decide),
    ok_bind, eStep1, ok_bind, eStep2, ok_bind]
  rfl

theorem eChunksEq : chunksD CV 2 eData = [eChunk] := by
  rw [chunksD]
  show chunksOf 2 [serV (Val.vint 5), serV (Val.vint 6)] = [eChunk]
  simp [chunksOf, eChunk]

theorem eHdrDataLen : eHdrData.length = 26 + eHraw.length := by
  rw [eHdrData]
  simp [MAGIC, le16, le32, length_checksumB, List.length_append]
  omega

theorem eFileEq : eFile =
    (MAGIC ++ le16 VERSION ++ le32 eHraw.length) ++ checksumB eHraw ++ eHraw ++
      List.replicate (HEADER_SPACE - (26 + eHraw.length)) 42 ++ eEnc ++
      (checksumB eIComp ++ eIComp) := by
  have e1 : eF1 = List.replicate HEADER_SPACE 42 ++ eEnc :=
    writeAt_eq_append _ _ _ (List.length_replicate _ _).symm
  have e2 : eF2 = List.replicate HEADER_SPACE 42 ++ eEnc ++ eIdxEnc := by
    rw [eF2, e1, writeAt_eq_append _ _ _ (by rw [List.length_append, List.length_replicate]; rfl)]
  have hle : eHdrData.length ≤ HEADER_SPACE := by
    rw [eHdrDataLen]
    have : eHraw.length = 106 := by decide
    rw [this]
    decide
  have e3 : eFile = eHdrData ++ (List.replicate HEADER_SPACE 42 ++ eEnc ++ eIdxEnc).drop eHdrData.length := by
    rw [eFile, e2, writeAt_zero]
  rw [e3, List.drop_append_of_le_length (by rw [List.length_append, List.length_replicate]; omega),
    List.drop_append_of_le_length (by rw [List.length_replicate]; omega),
    List.drop_replicate, eHdrDataLen]
  rw [eHdrData, eIdxEnc]
  simp [List.append_assoc]

theorem eGood : GoodAt CV 2 "zlib" "msgpack" eL eFile eData := by
  have h := goodAt_build CV 2 "zlib" "msgpack" eData [eChunk] [HEADER_SPACE] eEnc
    eIComp eHraw eChunksEq (by decide) (by decide) (by decide) rfl
    (by intro s hs; simp at hs; omega) rfl rfl
    (by have : eHraw.length = 106 := by decide
        rw [this]
        decide)
    (by intro i hi
        simp only [List.length_cons, List.length_nil] at hi
        have hi0 : i = 0 := by omega
        subst hi0
        decide)
    (by intro i hi
        simp only [List.length_cons, List.length_nil] at hi
        have hi0 : i = 0 := by omega
        subst hi0
        decide)
  rw [← eFileEq] at h
  exact h

theorem eIdxLEq : idxL CV 2 eL eData = eIdx := by
  rw [idxL, eChunksEq]
  rfl

theorem eHdrEq : hdrOf CV 2 "zlib" "msgpack" eL eData =
    mkHeader eIStart eIComp.length (CV.packIndex eIdx).length "msgpack" "zlib" 2 2 := by
  rw [hdrOf, eIdxLEq]
  rfl

def eA : WState Val := ⟨eFile, eIStart + CHECKSUM_LEN + eIComp.length, 2, 2, "zlib", "msgpack", [], 1, eIdx⟩

theorem eAppEq : appenderInitB CV eFile = .ok eA := by
  rw [appenderInitB,
    readHeaderB_good CV_lawful eGood eFile (eGood.hdrReads eFile (extOf_self eFile)),
    ok_bind, eHdrEq, hgetNat_index_start, ok_bind, hgetNat_index_size, ok_bind]
  have hidx : readIndexB CV eFile eIStart eIComp.length = .ok eIdx := by
    have h := readIndexB_good CV_lawful eGood eFile (extOf_self eFile)
    rw [eIdxLEq] at h
    exact h
  rw [hidx, ok_bind, hgetNat_block_length, ok_bind, hgetNat_length, ok_bind,
    hgetStr_compression, ok_bind, hgetStr_serializer, ok_bind]
  rfl

/-! ### Supporting fixtures for the claim witnesses -/

theorem cOpsEq : applyOps CV [SessOp.ext [Val.vint 7]] cA = .ok cA2 := by
  show (extendW CV [Val.vint 7] cA >>= fun W => List.foldlM (applyOp CV) W []) = .ok cA2
  rw [cExtEq, ok_bind, List.foldlM_nil]
  rfl

theorem cByte30 : cFile[30]? = some 100 := by
  rw [cFileEq]
  have hassoc : (MAGIC ++ le16 VERSION ++ le32 cHraw.length) ++ checksumB cHraw ++ cHraw ++
      List.replicate (HEADER_SPACE - (26 + cHraw.length)) 42 ++ cEnc ++
      (checksumB cIComp ++ cIComp) =
      ((MAGIC ++ le16 VERSION ++ le32 cHraw.length) ++ checksumB cHraw) ++
      (cHraw ++ (List.replicate (HEADER_SPACE - (26 + cHraw.length)) 42 ++ (cEnc ++
      (checksumB cIComp ++ cIComp)))) := by
    simp [List.append_assoc]
  have hlen26 : ((MAGIC ++ le16 VERSION ++ le32 cHraw.length) ++ checksumB cHraw).length = 26 := by
    simp [MAGIC, le16, le32, length_checksumB]
  rw [hassoc, List.getElem?_append_right (by rw [hlen26]; omega), hlen26,
    List.getElem?_append_left (by decide)]
  decide

/-! ### The claims -/

/-- C1: for every record sequence, every supported serializer and compression
name, and every `block_length ≥ 1`, creating a `DatasetWriter`, calling
`extend` with the sequence, calling `close`, then opening a `DatasetReader`
on the file and iterating it yields exactly the original sequence, in order. -/
theorem c1_roundtrip {ρ : Type} {C : Codec ρ} {bl : Nat} {cname sname : String}
    (lawC : LawfulCodec C) (hbl : 1 ≤ bl) (hcn : cname ∈ compressionNames)
    (hsn : sname ∈ serializerNames) (data : List ρ) (f : Bytes)
    (hw : writeSession C bl cname sname data = .ok f) :
    readerListB C f = .ok data := by
  obtain ⟨L, good⟩ := writeSession_good hbl hcn hsn data f hw
  exact readerListB_good lawC good f (extOf_self f)

/-- Witness for C1: the one-record session round-trips. -/
theorem c1_roundtrip_witness :
    writeSession CV 1 "zlib" "msgpack" cData = .ok cFile ∧
    readerListB CV cFile = .ok cData :=
  ⟨cWS, c1_roundtrip CV_lawful (by decide) (by decide) (by decide) cData cFile cWS⟩

/-- C2: writing part A with a `DatasetWriter` and closing, then for each
subsequent part opening a `DatasetAppender`, extending with that part and
closing, produces a file whose reader iteration yields exactly the
concatenation of all parts — for any split points and any number of
sessions. -/
theorem c2_append_composition {ρ : Type} {C : Codec ρ} {bl : Nat}
    {cname sname : String} (lawC : LawfulCodec C) (hbl : 1 ≤ bl)
    (hcn : cname ∈ compressionNames) (hsn : sname ∈ serializerNames)
    (first : List ρ) (rest : List (List ρ)) (f : Bytes)
    (hm : multiSession C bl cname sname first rest = .ok f) :
    readerListB C f = .ok (first ++ rest.flatten) := by
  rw [multiSession] at hm
  cases hw : writeSession C bl cname sname first with
  | error e =>
    rw [hw] at hm
    exact Except.noConfusion hm
  | ok f0 =>
    rw [hw, ok_bind] at hm
    have hgf := writeSession_good hbl hcn hsn first f0 hw
    obtain ⟨L, good⟩ := foldl_appendSession_good lawC rest f0 first hgf f hm
    exact readerListB_good lawC good f (extOf_self f)

/-- Witness for C2: a write session followed by one append session. -/
theorem c2_append_composition_witness :
    multiSession CV 1 "zlib" "msgpack" cData [[Val.vint 7]] = .ok cFile2 ∧
    readerListB CV cFile2 = .ok (cData ++ [[Val.vint 7]].flatten) :=
  ⟨cMulti, c2_append_composition CV_lawful (by decide) (by decide) (by decide)
    cData [[Val.vint 7]] cFile2 cMulti⟩

/-- C3 (counterexample): an append session on the closed one-record file that
flushes one new block and is then abandoned does NOT overwrite the previous
session's index — the appender's initial cursor sits past it (`dset.py`
line 483), the new block is appended after it, and opening the file for
reading succeeds with exactly the old records instead of failing with an
index-checksum `Corruption` error, contradicting the claim. -/
theorem c3_index_not_overwritten :
    appenderInitB CV cFile = .ok cA ∧
    extendW CV [Val.vint 7] cA = .ok cA2 ∧
    cA2.file = cFile ++ cEnc2 ∧
    readAt cA2.file cL.istart (8 + cL.isize) = readAt cFile cL.istart (8 + cL.isize) ∧
    readerListB CV cA2.file = .ok cData := by
  refine ⟨cAppEq, cExtEq, cFileAbEq, ?_, ?_⟩
  · show readAt cFileAb _ _ = _
    rw [cFileAbEq]
    apply readAt_append_left
    rw [cGood.hEOF]
    omega
  · show readerListB CV cFileAb = _
    rw [cFileAbEq]
    exact readerListB_good CV_lawful cGood _ (extOf_append cFile cEnc2)

/-- C3 (amended): whatever append/extend/flush operations an appender session
performs after `DatasetAppender.__init__`, as long as `close()` has not run,
the byte region of the previous session's index is unchanged and reading the
file still yields exactly the previous session's records. -/
theorem c3_amended_appender_preserves_index {ρ : Type} {C : Codec ρ} {bl : Nat}
    {cname sname : String} {L : Layout} {f : Bytes} {d : List ρ}
    (lawC : LawfulCodec C) (good : GoodAt C bl cname sname L f d)
    (A : WState ρ) (hA : appenderInitB C f = .ok A) :
    ∀ ops A', applyOps C ops A = .ok A' →
      readAt A'.file L.istart (8 + L.isize) = readAt f L.istart (8 + L.isize) ∧
      readerListB C A'.file = .ok d := by
  obtain ⟨A₀, flA, stA, hA₀, invA, hpos, hfile, hcur⟩ := appenderInitB_good lawC good
  rw [hA₀] at hA
  injection hA with hA
  subst hA
  have hs : SInv f A₀ := by
    constructor
    · rw [hpos, hfile, good.hEOF]
      rfl
    · exact ⟨[], by rw [hfile]; simp⟩
  intro ops A' hops
  obtain ⟨hpos', t, hfile'⟩ := applyOps_sinv C f ops A₀ A' hs hops
  constructor
  · rw [hfile']
    exact readAt_append_left _ _ _ _ (by rw [good.hEOF]; omega)
  · rw [hfile']
    exact readerListB_good lawC good _ (extOf_append f t)

/-- Witness for the amended C3, at the concrete one-record file. -/
theorem c3_amended_appender_preserves_index_witness :
    applyOps CV [SessOp.ext [Val.vint 7]] cA = .ok cA2 ∧
    (∀ ops A', applyOps CV ops cA = .ok A' →
      readAt A'.file cL.istart (8 + cL.isize) = readAt cFile cL.istart (8 + cL.isize) ∧
      readerListB CV A'.file = .ok cData) :=
  ⟨cOpsEq, c3_amended_appender_preserves_index CV_lawful cGood cA cAppEq⟩

/-- C4 (counterexample): `dset_sort` caches the raw serialized block items
(`cache[dsti] = cur_block[j]`, line 89 of `dset_sort.py`) and hands them to
`dout.extend`, which serializes them again; reading the sorted output of a
two-record dataset therefore yields the key-ordered byte strings of the
records instead of the records themselves, so the output differs from
`sorted(data, key=keyfn)` — contradicting the claim (and the repo's own
`test_dset_sort`). -/
theorem c4_sort_double_serialization :
    writeSession CV 1 "zlib" "msgpack" dData = .ok dFile ∧
    readerListB CV dFile = .ok dData ∧
    pySortedBy keyV dData = [Val.vint 0, Val.vint 1] ∧
    ∃ sf, sortSession CV Val.vbytes keyV 1 1 "zlib" "msgpack" dFile = .ok sf ∧
      readerListB CV sf =
        .ok [Val.vbytes (serV (Val.vint 0)), Val.vbytes (serV (Val.vint 1))] ∧
      [Val.vbytes (serV (Val.vint 0)), Val.vbytes (serV (Val.vint 1))] ≠
        [Val.vint 0, Val.vint 1] := by
  obtain ⟨L, good⟩ : GoodFile CV 1 "zlib" "msgpack" dFile dData := ⟨dL, dGood⟩
  refine ⟨dWS, readerListB_good CV_lawful good dFile (extOf_self dFile), by decide, ?_⟩
  have inv0 := initW_inv CV 1 "zlib" "msgpack" (by decide) (by decide) (by decide)
  obtain ⟨W1, fl1, st1, hext1, inv1, _, _⟩ :=
    extendW_inv inv0 [Val.vbytes (serV (Val.vint 0))]
  rw [sStepA] at hext1
  injection hext1 with hext1
  subst hext1
  obtain ⟨W2, fl2, st2, hext2, inv2, _, _⟩ :=
    extendW_inv inv1 [Val.vbytes (serV (Val.vint 1))]
  rw [sStepB] at hext2
  injection hext2 with hext2
  subst hext2
  obtain ⟨sW2, hclose⟩ := closeW_ok_cv sWb rfl rfl rfl
  obtain ⟨L2, good2⟩ := closeW_good inv2 sW2 hclose
  refine ⟨sW2.file, ?_, ?_, by decide⟩
  · rw [sortSession, readerInitB_good CV_lawful good dFile (extOf_self dFile), ok_bind,
      initW_ok Val 1 "zlib" "msgpack" (by decide) (by decide) (by decide), ok_bind,
      dSortRun good, ok_bind, hclose, ok_bind]
    rfl
  · have h := readerListB_good CV_lawful good2 sW2.file (extOf_self sW2.file)
    simpa using h

/-- C5 (counterexample): for the stored one-record sequence, the slice
`[0:1:2]` is valid and equals `[data[0]]` under Python slicing, but
`get_slice` computes the item count as `(stop - start) // step = 0` and
returns an empty sequence. -/
theorem c5_slice_miscount :
    readerInitB CV cFile = .ok (stOf CV 1 cL cFile cData) ∧
    getSliceList CV (stOf CV 1 cL cFile cData) (some 0) (some 1) (some 2) = .ok [] ∧
    pySliceVals cData (some 0) (some 1) (some 2) = .ok [Val.vint 5] :=
  ⟨readerInitB_good CV_lawful cGood cFile (extOf_self cFile), rfl, rfl⟩

/-- C6: for every stored sequence and every integer `n`, `get_idx n` on a
freshly opened reader returns `data[n]` whenever Python indexing (negative
indices relative to the length) is defined, and raises `IndexError`
otherwise. -/
theorem c6_get_idx {ρ : Type} {C : Codec ρ} {bl : Nat} {cname sname : String}
    {L : Layout} {f : Bytes} {d : List ρ}
    (lawC : LawfulCodec C) (good : GoodAt C bl cname sname L f d)
    (st : RState) (hst : readerInitB C f = .ok st) (n : Int) :
    (∀ v, pyGet d n = some v → ∃ st', getIdx C st n = .ok (v, st')) ∧
    (pyGet d n = none → getIdx C st n = .error .indexOut) := by
  have h := readerInitB_good lawC good f (extOf_self f)
  rw [h] at hst
  injection hst with hst
  subst hst
  obtain ⟨h1, h2⟩ := getIdx_spec lawC good f (extOf_self f) n
  exact ⟨h2, h1⟩

/-- Witness for C6 at index `-1` of the one-record file. -/
theorem c6_get_idx_witness :
    pyGet cData (-1) = some (Val.vint 5) ∧
    ((∀ v, pyGet cData (-1) = some v →
        ∃ st', getIdx CV (stOf CV 1 cL cFile cData) (-1) = .ok (v, st')) ∧
     (pyGet cData (-1) = none →
        getIdx CV (stOf CV 1 cL cFile cData) (-1) = .error .indexOut)) :=
  ⟨rfl, c6_get_idx CV_lawful cGood (stOf CV 1 cL cFile cData)
    (readerInitB_good CV_lawful cGood cFile (extOf_self cFile)) (-1)⟩

/-- C7: if an append session adds records that never fill a complete block,
the file bytes are unchanged, and an abandoned session (no `close()`) leaves
the file reading back exactly the pre-session records. -/
theorem c7_no_flush_abandon {ρ : Type} {C : Codec ρ} {bl : Nat}
    {cname sname : String} {L : Layout} {f : Bytes} {d : List ρ}
    (lawC : LawfulCodec C) (good : GoodAt C bl cname sname L f d)
    (A : WState ρ) (hA : appenderInitB C f = .ok A) (xs : List ρ)
    (hsmall : d.length % bl + xs.length < bl) :
    ∃ A', extendW C xs A = .ok A' ∧ A'.file = f ∧ readerListB C A'.file = .ok d := by
  obtain ⟨A₀, flA, stA, hA₀, invA, hpos, hfile, hcur⟩ := appenderInitB_good lawC good
  rw [hA₀] at hA
  injection hA with hA
  subst hA
  have h : A₀.cur_block.length + xs.length < A₀.block_length := by
    rw [hcur, invA.hbl]
    exact hsmall
  refine ⟨_, extendW_no_flush C xs A₀ h, ?_, ?_⟩
  · show A₀.file = f
    exact hfile
  · show readerListB C A₀.file = .ok d
    rw [hfile]
    exact readerListB_good lawC good f (extOf_self f)

/-- Witness for C7: one record appended to the two-record `block_length = 2`
file does not fill a block. -/
theorem c7_no_flush_abandon_witness :
    eData.length % 2 + [Val.vint 7].length < 2 ∧
    (∃ A', extendW CV [Val.vint 7] eA = .ok A' ∧ A'.file = eFile ∧
      readerListB CV A'.file = .ok eData) :=
  ⟨by decide, c7_no_flush_abandon CV_lawful eGood eA eAppEq [Val.vint 7] (by decide)⟩

/-- C8 (counterexample): the header map written by `close` on the one-record
file has keys `index_start`, `index_size`, `index_raw`, `serializer`,
`compression`, `block_length`, `length` — the key `index_size_raw` documented
by the spec does not occur; the uncompressed index size is stored under
`index_raw` instead (`dset.py` line 391). -/
theorem c8_header_keys :
    ∃ h, readHeaderB CV cFile = .ok h ∧
      h.map Prod.fst = ["index_start", "index_size", "index_raw", "serializer",
        "compression", "block_length", "length"] ∧
      ("index_size_raw" ∉ h.map Prod.fst) ∧
      hget h "index_raw" = .ok (HVal.nat (CV.packIndex (idxL CV 1 cL cData)).length) := by
  refine ⟨hdrOf CV 1 "zlib" "msgpack" cL cData,
    readHeaderB_good CV_lawful cGood cFile (cGood.hdrReads cFile (extOf_self cFile)),
    ?_, ?_, ?_⟩
  · rw [cHdrEq]
    rfl
  · rw [cHdrEq]
    decide
  · rw [cHdrEq, cIdxLEq]
    rfl

/-- C9: on a closed dataset file, changing any single byte inside the msgpack
header bytes, inside the compressed index bytes, or inside a block's
compressed payload makes (respectively) the header read, the index load on
reader open, or that block's load fail with the corresponding checksum
`Corruption` error instead of returning data. -/
theorem c9_corruption_detected {ρ : Type} {C : Codec ρ} {bl : Nat}
    {cname sname : String} {L : Layout} {f : Bytes} {d : List ρ}
    (lawC : LawfulCodec C) (good : GoodAt C bl cname sname L f d) (p b v : Nat)
    (hv : f[p]? = some v) (hvlt : v < 256) (hblt : b < 256) (hne : b ≠ v) :
    (26 ≤ p → p < 26 + L.hs → readHeaderB C (f.set p b) = .error .headerChecksum) ∧
    (L.istart + 8 ≤ p → p < L.istart + 8 + L.isize →
      readerInitB C (f.set p b) = .error .indexChecksum) ∧
    (∀ i, i < (chunksD C bl d).length → L.starts.getD i 0 + 8 ≤ p →
      p < L.starts.getD i 0 + 8 + (blockComp C ((chunksD C bl d).getD i [])).length →
      loadBlockB C ⟨f.set p b, idxL C bl L d, bl, d.length, none⟩ i =
        .error (.blockChecksum i)) :=
  ⟨fun h1 h2 => readHeaderB_corrupt good p b v h1 h2 hv (by omega) (by omega) hne,
   fun h1 h2 => readerInitB_corrupt_index lawC good p b v h1 h2 hv (by omega) (by omega) hne,
   fun i hi h1 h2 => loadBlockB_corrupt good i hi p b v h1 h2 hv (by omega) (by omega) hne⟩

/-- Witness for C9: flipping byte 30 (inside the header bytes) of the
one-record file. -/
theorem c9_corruption_detected_witness :
    cFile[30]? = some 100 ∧
    ((26 ≤ 30 → 30 < 26 + cL.hs → readHeaderB CV (cFile.set 30 0) = .error .headerChecksum) ∧
     (cL.istart + 8 ≤ 30 → 30 < cL.istart + 8 + cL.isize →
       readerInitB CV (cFile.set 30 0) = .error .indexChecksum) ∧
     (∀ i, i < (chunksD CV 1 cData).length → cL.starts.getD i 0 + 8 ≤ 30 →
       30 < cL.starts.getD i 0 + 8 + (blockComp CV ((chunksD CV 1 cData).getD i [])).length →
       loadBlockB CV ⟨cFile.set 30 0, idxL CV 1 cL cData, 1, cData.length, none⟩ i =
         .error (.blockChecksum i))) :=
  ⟨cByte30, c9_corruption_detected CV_lawful cGood 30 0 100 cByte30
    (by decide) (by decide) (by decide)⟩

/-- C10: after `DatasetAppender.__init__` the cursor sits at
`index_start + CHECKSUM_LEN + index_size`, and any sequence of
append/extend/flush operations in the session only grows the file past that
offset: the previous session's bytes stay a prefix and the file remains
readable with exactly the previous session's records until `close()`. -/
theorem c10_appender_frame {ρ : Type} {C : Codec ρ} {bl : Nat}
    {cname sname : String} {L : Layout} {f : Bytes} {d : List ρ}
    (lawC : LawfulCodec C) (good : GoodAt C bl cname sname L f d)
    (A : WState ρ) (hA : appenderInitB C f = .ok A) :
    A.pos = L.istart + CHECKSUM_LEN + L.isize ∧
    ∀ ops A', applyOps C ops A = .ok A' →
      f.length ≤ A'.file.length ∧ A'.file.take f.length = f ∧
      readerListB C A'.file = .ok d := by
  obtain ⟨A₀, flA, stA, hA₀, invA, hpos, hfile, hcur⟩ := appenderInitB_good lawC good
  rw [hA₀] at hA
  injection hA with hA
  subst hA
  refine ⟨hpos, ?_⟩
  have hs : SInv f A₀ := by
    constructor
    · rw [hpos, hfile, good.hEOF]
      rfl
    · exact ⟨[], by rw [hfile]; simp⟩
  intro ops A' hops
  obtain ⟨hpos', t, hfile'⟩ := applyOps_sinv C f ops A₀ A' hs hops
  refine ⟨?_, ?_, ?_⟩
  · rw [hfile', List.length_append]
    omega
  · rw [hfile']
    exact List.take_left f t
  · rw [hfile']
    exact readerListB_good lawC good _ (extOf_append f t)

/-- Witness for C10 at the concrete one-record file, with a flushing extend. -/
theorem c10_appender_frame_witness :
    applyOps CV [SessOp.ext [Val.vint 7]] cA = .ok cA2 ∧
    (cA.pos = cL.istart + CHECKSUM_LEN + cL.isize ∧
     ∀ ops A', applyOps CV ops cA = .ok A' →
       cFile.length ≤ A'.file.length ∧ A'.file.take cFile.length = cFile ∧
       readerListB CV A'.file = .ok cData) :=
  ⟨cOpsEq, c10_appender_frame CV_lawful cGood cA cAppEq⟩

end PypbDset
